import Mathlib

/-!
Verification of the expense settlement engine of the sire-cup repository.

The engine lives inline in the settle_up route of src/app.py (lines 567 to
617).  It first builds a per-player balance map from the expense list (the
spec calls this computeBalances), then partitions the players into debtors
and creditors, sorts both lists in descending order of outstanding amount,
and runs a two-cursor greedy sweep that emits transactions (the spec calls
this computeTransactions).

Numbers are modelled by the rationals: every currency literal of the source
(0.01, amounts, shares) is an exact rational here, and the Python float
arithmetic of the source is idealised as exact rational arithmetic.  The
Python dictionary balances (a defaultdict with default 0.0) is modelled by
a pair of an insertion-ordered key list and a total valuation function that
is zero off the key list.  The while loop of the source is modelled by a
step function on sweep states together with a fuel-indexed runner; the
runner returns none exactly when the loop fails to exit within the given
fuel, and the fuel chosen by computeTransactions is large enough that a
none answer means the source loop has reached a state that it can never
leave (this is proved below).
-/

namespace SireCup

/-- Player record: only the id (primary key) and the display name are read
by the settlement code.  In the database schema the id is the unique
primary key and the name column is declared unique. -/
structure Player where
  id : Nat
  name : String
deriving DecidableEq

/-- Expense record as read by the engine: the amount, the id of the payer,
and the list of ids of the participants (the player_id fields of the
ExpenseParticipant rows of the expense). -/
structure Expense where
  amount : ℚ
  payer : Nat
  participants : List Nat
deriving DecidableEq

/-- Model of the Python defaultdict(float) used for balances: keys holds
the inserted keys in insertion order, and val is the stored value (zero
for keys that were never inserted, matching the 0.0 default). -/
structure BalMap where
  keys : List Nat
  val : Nat → ℚ

/-- Balance map with no keys, every value the default 0. -/
def BalMap.empty : BalMap := ⟨[], fun _ => 0⟩

/-- Model of balances[k] += x on a defaultdict(float): the key is inserted
if absent (the read of a missing key inserts the default 0.0), and the
stored value grows by x.  The initialisation balances[player.id] = 0.0 of
the source is the x = 0 case. -/
def BalMap.addTo (m : BalMap) (k : Nat) (x : ℚ) : BalMap :=
  ⟨if k ∈ m.keys then m.keys else m.keys ++ [k],
   Function.update m.val k (m.val k + x)⟩

/-- Sum of the stored values over the key list, the model of
sum(balances.values()). -/
def BalMap.total (m : BalMap) : ℚ := (m.keys.map m.val).sum

/-- Processing of one expense, mirroring the body of the expense loop of
settle_up: credit the full amount to the payer; then, only when the
participant list is non-empty, debit amount / len(participants) from every
participant.  The source guards the share computation with
if expense.participants, so no division happens for an empty list. -/
def applyExpense (m : BalMap) (e : Expense) : BalMap :=
  let m1 := m.addTo e.payer e.amount
  if e.participants = [] then m1
  else
    let share := e.amount / (e.participants.length : ℚ)
    e.participants.foldl (fun acc pid => acc.addTo pid (-share)) m1

/-- Balance computation of settle_up (the operation the spec calls
computeBalances): every player id is inserted with value 0.0 first, then
the expenses are folded in. -/
def computeBalances (players : List Player) (expenses : List Expense) : BalMap :=
  let init := players.foldl (fun m p => m.addTo p.id 0) BalMap.empty
  expenses.foldl applyExpense init

/-- Entry of the debtors or creditors work lists of settle_up: the player
dictionary {player, amount} with amount the outstanding magnitude. -/
structure Entry where
  player : Player
  amount : ℚ
deriving DecidableEq

/-- Emitted transaction, mirroring the dictionary appended by settle_up:
the source stores the NAMES of the two players (debtor name, creditor
name) and the rounded amount. -/
structure Tx where
  fromName : String
  toName : String
  amount : ℚ
deriving DecidableEq

/-- Partition of the players into debtors and creditors, mirroring the
for player in players loop of settle_up: a player with negative balance is
appended to the debtors with the absolute value as amount, a player with
positive balance is appended to the creditors, a player with zero balance
is skipped.  Only ids of listed players are consulted. -/
def partitionDC (players : List Player) (bal : Nat → ℚ) : List Entry × List Entry :=
  players.foldl
    (fun dc p =>
      if bal p.id < 0 then (dc.1 ++ [⟨p, |bal p.id|⟩], dc.2)
      else if 0 < bal p.id then (dc.1, dc.2 ++ [⟨p, bal p.id⟩]) else dc)
    ([], [])

/-- Stable insertion into a list that is kept in descending order of
amount: the new element passes over the strictly larger amounts and stops
in front of the first amount that is not strictly larger, so elements of
equal amount keep their original relative order. -/
def insertDesc (x : Entry) : List Entry → List Entry
  | [] => [x]
  | y :: ys => if x.amount < y.amount then y :: insertDesc x ys else x :: y :: ys

/-- Stable descending sort by amount, the model of
list.sort(key=lambda x: x[1], reverse=True) of the source (Python sort is
stable and reverse=True keeps equal keys in encounter order; a stable
descending sort is unique, so this insertion sort computes the same
list). -/
def sortDesc (l : List Entry) : List Entry := l.foldr insertDesc []

/-- Rounding of a rational to the nearest integer with ties going to the
even neighbour, the tie rule of the Python builtin round. -/
def roundHalfEven (q : ℚ) : ℤ :=
  if Int.fract q = 1/2 then 2 * round (q / 2) else round q

/-- Model of round(x, 2) of the source: round to two decimal places with
ties to even. -/
def round2 (q : ℚ) : ℚ := (roundHalfEven (q * 100) : ℚ) / 100

/-- State of the settlement sweep: the unprocessed suffix of the debtors
list (current debtor first), the unprocessed suffix of the creditors list
(current creditor first), and the transactions emitted so far.  The source
walks the two lists with indices i and j and mutates the amount of the
current entries in place; dropping the head of a list here corresponds to
advancing the matching index there. -/
structure SweepState where
  debtors : List Entry
  creditors : List Entry
  txs : List Tx
deriving DecidableEq

/-- One iteration of the while loop of settle_up.  With a current debtor
and creditor: settle is the minimum of the two outstanding amounts; when
settle exceeds 0.01 a transaction with the rounded amount is appended AND
settle is subtracted from both outstanding amounts (both the emission and
the subtraction sit inside the same conditional in the source); afterwards
each cursor advances exactly when its outstanding amount is below 0.01.
When either list is empty the state is returned unchanged (the loop guard
has failed). -/
def sweepStep (s : SweepState) : SweepState :=
  match s.debtors, s.creditors with
  | debtor :: ds, creditor :: cs =>
    let settle := min debtor.amount creditor.amount
    let next :=
      if 1/100 < settle then
        (Entry.mk debtor.player (debtor.amount - settle),
         Entry.mk creditor.player (creditor.amount - settle),
         s.txs ++ [Tx.mk debtor.player.name creditor.player.name (round2 settle)])
      else (debtor, creditor, s.txs)
    ⟨if next.1.amount < 1/100 then ds else next.1 :: ds,
     if next.2.1.amount < 1/100 then cs else next.2.1 :: cs,
     next.2.2⟩
  | _, _ => s

/-- Fuel-indexed runner of the while loop: stops with the current state as
soon as either list is exhausted (the loop guard i < len(debtors) and
j < len(creditors) fails), and returns none when the fuel runs out
first. -/
def sweepRun : Nat → SweepState → Option SweepState
  | 0, s => if s.debtors = [] ∨ s.creditors = [] then some s else none
  | fuel + 1, s =>
    if s.debtors = [] ∨ s.creditors = [] then some s
    else sweepRun fuel (sweepStep s)

/-- Starting state of the sweep: both partitions sorted in descending
order of amount, no transactions yet. -/
def initState (players : List Player) (bal : Nat → ℚ) : SweepState :=
  let dc := partitionDC players bal
  ⟨sortDesc dc.1, sortDesc dc.2, []⟩

/-- Transaction computation of settle_up (the operation the spec calls
computeTransactions).  The fuel one more than the total number of entries
is enough whenever the loop exits at all: every iteration either removes
an entry or leaves the state unchanged forever, a fact proved below, so a
none result means the source loop never exits. -/
def computeTransactions (players : List Player) (bal : Nat → ℚ) : Option (List Tx) :=
  let s0 := initState players bal
  (sweepRun (s0.debtors.length + s0.creditors.length + 1) s0).map SweepState.txs

/-! Well-formedness of balance maps and the behaviour of the total. -/

/-- Well-formed balance map: keys are duplicate-free and the valuation is
the default 0 off the key list.  Every map the engine builds is well
formed. -/
def BalMap.WF (m : BalMap) : Prop := m.keys.Nodup ∧ ∀ k, k ∉ m.keys → m.val k = 0

theorem BalMap.empty_WF : BalMap.empty.WF := by
  constructor
  · exact List.nodup_nil
  · intro k _
    rfl

theorem BalMap.addTo_WF (m : BalMap) (k : Nat) (x : ℚ) (h : m.WF) : (m.addTo k x).WF := by
  obtain ⟨hnd, hz⟩ := h
  constructor
  · simp only [addTo]
    by_cases hk : k ∈ m.keys
    · simpa [hk] using hnd
    · simp only [hk, if_false]
      exact List.Nodup.append hnd (List.nodup_singleton k) (by simpa using hk)
  · intro i hi
    simp only [addTo] at hi ⊢
    by_cases hk : k ∈ m.keys
    · simp only [hk, if_true] at hi
      have hik : i ≠ k := fun h => hi (h ▸ hk)
      rw [Function.update_apply, if_neg hik]
      exact hz i hi
    · simp only [hk, if_false, List.mem_append, List.mem_singleton] at hi
      push_neg at hi
      rw [Function.update_apply, if_neg hi.2]
      exact hz i hi.1

theorem sum_map_update (l : List Nat) (f : Nat → ℚ) (k : Nat) (y : ℚ)
    (hnd : l.Nodup) (hk : k ∈ l) :
    (l.map (Function.update f k y)).sum = (l.map f).sum - f k + y := by
  induction l with
  | nil => cases hk
  | cons a t ih =>
    have hat : a ∉ t := (List.nodup_cons.mp hnd).1
    rcases List.mem_cons.mp hk with rfl | hkt
    · have htt : t.map (Function.update f k y) = t.map f := by
        apply List.map_congr_left
        intro i hi
        rw [Function.update_apply, if_neg]
        rintro rfl
        exact hat hi
      simp only [List.map_cons, List.sum_cons, htt, Function.update_same]
      ring
    · have hak : a ≠ k := by
        rintro rfl
        exact hat hkt
      rw [List.map_cons, List.map_cons, List.sum_cons, List.sum_cons,
        ih (List.nodup_cons.mp hnd).2 hkt, Function.update_apply, if_neg hak]
      ring

theorem BalMap.addTo_total (m : BalMap) (k : Nat) (x : ℚ) (h : m.WF) :
    (m.addTo k x).total = m.total + x := by
  obtain ⟨hnd, hz⟩ := h
  by_cases hk : k ∈ m.keys
  · simp only [total, addTo, hk, if_true]
    rw [sum_map_update m.keys m.val k (m.val k + x) hnd hk]
    ring
  · simp only [total, addTo, hk, if_false, List.map_append, List.sum_append,
      List.map_singleton, List.sum_singleton]
    have htt : m.keys.map (Function.update m.val k (m.val k + x)) = m.keys.map m.val := by
      apply List.map_congr_left
      intro i hi
      rw [Function.update_apply, if_neg]
      rintro rfl
      exact hk hi
    rw [htt, Function.update_same, hz k hk]
    ring

/-! Totals through the balance computation. -/

theorem foldl_addTo_zero_WF (players : List Player) (m : BalMap) (h : m.WF) :
    (players.foldl (fun m p => m.addTo p.id 0) m).WF := by
  induction players generalizing m with
  | nil => exact h
  | cons p t ih => exact ih _ (m.addTo_WF p.id 0 h)

theorem foldl_addTo_zero_total (players : List Player) (m : BalMap) (h : m.WF) :
    (players.foldl (fun m p => m.addTo p.id 0) m).total = m.total := by
  induction players generalizing m with
  | nil => rfl
  | cons p t ih =>
    simp only [List.foldl_cons]
    rw [ih _ (m.addTo_WF p.id 0 h), m.addTo_total p.id 0 h, add_zero]

theorem foldl_addTo_const_WF (l : List Nat) (c : ℚ) (m : BalMap) (h : m.WF) :
    (l.foldl (fun acc pid => acc.addTo pid c) m).WF := by
  induction l generalizing m with
  | nil => exact h
  | cons a t ih => exact ih _ (m.addTo_WF a c h)

theorem foldl_addTo_const_total (l : List Nat) (c : ℚ) (m : BalMap) (h : m.WF) :
    (l.foldl (fun acc pid => acc.addTo pid c) m).total = m.total + l.length * c := by
  induction l generalizing m with
  | nil => simp
  | cons a t ih =>
    simp only [List.foldl_cons, List.length_cons]
    rw [ih _ (m.addTo_WF a c h), m.addTo_total a c h]
    push_cast
    ring

theorem applyExpense_WF (m : BalMap) (e : Expense) (h : m.WF) : (applyExpense m e).WF := by
  unfold applyExpense
  by_cases hp : e.participants = []
  · simpa [hp] using m.addTo_WF e.payer e.amount h
  · simp only [hp, if_neg, if_false]
    exact foldl_addTo_const_WF _ _ _ (m.addTo_WF e.payer e.amount h)

theorem applyExpense_total (m : BalMap) (e : Expense) (h : m.WF) :
    (applyExpense m e).total = m.total + (if e.participants = [] then e.amount else 0) := by
  unfold applyExpense
  by_cases hp : e.participants = []
  · simp only [hp, if_true]
    exact m.addTo_total e.payer e.amount h
  · simp only [hp, if_false]
    rw [foldl_addTo_const_total _ _ _ (m.addTo_WF e.payer e.amount h),
      m.addTo_total e.payer e.amount h]
    have hlen : (e.participants.length : ℚ) ≠ 0 := by
      have : e.participants.length ≠ 0 := fun hc => hp (List.length_eq_zero.mp hc)
      exact_mod_cast this
    field_simp
    ring

theorem foldl_applyExpense_total (expenses : List Expense) (m : BalMap) (h : m.WF) :
    (expenses.foldl applyExpense m).total
      = m.total + ((expenses.filter (fun e => e.participants = [])).map Expense.amount).sum := by
  induction expenses generalizing m with
  | nil => simp
  | cons e es ih =>
    simp only [List.foldl_cons]
    rw [ih _ (applyExpense_WF m e h), applyExpense_total m e h, List.filter_cons]
    by_cases hp : e.participants = []
    · simp only [hp, if_pos, decide_True, List.map_cons, List.sum_cons]
      ring
    · simp only [hp, decide_False, Bool.false_eq_true, if_false]
      ring

theorem computeBalances_WF (players : List Player) (expenses : List Expense) :
    (computeBalances players expenses).WF := by
  unfold computeBalances
  induction expenses using List.reverseRecOn with
  | nil => exact foldl_addTo_zero_WF players BalMap.empty BalMap.empty_WF
  | append_singleton es e ih =>
    rw [List.foldl_append, List.foldl_cons, List.foldl_nil]
    exact applyExpense_WF _ e ih

/-- Total of the computed balances: exactly the summed amounts of the
expenses whose participant list is empty (each such amount is credited to
its payer and debited to nobody). -/
theorem computeBalances_total (players : List Player) (expenses : List Expense) :
    (computeBalances players expenses).total
      = ((expenses.filter (fun e => e.participants = [])).map Expense.amount).sum := by
  unfold computeBalances
  rw [foldl_applyExpense_total expenses _
    (foldl_addTo_zero_WF players BalMap.empty BalMap.empty_WF),
    foldl_addTo_zero_total players BalMap.empty BalMap.empty_WF]
  simp [BalMap.total, BalMap.empty]

/-- C1 counterexample: a single expense of 50 paid by player 1 with an
empty participant list makes the balances sum to 50, not 0, so the zero
sum claim fails on inputs that contain an expense with an empty
participant set. -/
theorem zero_sum_cex :
    (computeBalances [⟨1, "A"⟩] [⟨50, 1, []⟩]).total = 50 ∧ (50 : ℚ) ≠ 0 := by
  constructor
  · norm_num [computeBalances, applyExpense, BalMap.addTo, BalMap.total, BalMap.empty,
      Function.update]
  · norm_num

/-- C1 amended: the values of the balance map returned by computeBalances
sum to the total amount of the expenses whose participant set is empty; in
particular the sum is zero whenever every expense has a non-empty
participant set (the claim was wrong to include the empty participant
case, where the payer is credited and nobody is debited). -/
theorem zero_sum_amended (players : List Player) (expenses : List Expense) :
    (computeBalances players expenses).total
      = ((expenses.filter (fun e => e.participants = [])).map Expense.amount).sum
    ∧ ((∀ e ∈ expenses, e.participants ≠ []) →
        (computeBalances players expenses).total = 0) := by
  refine ⟨computeBalances_total players expenses, fun h => ?_⟩
  rw [computeBalances_total players expenses]
  have : expenses.filter (fun e => e.participants = []) = [] := by
    rw [List.filter_eq_nil_iff]
    intro e he
    simpa using h e he
  rw [this]
  rfl

/-- C1 witness: the amended statement applied to one concrete input whose
only expense has a non-empty participant set. -/
theorem zero_sum_amended_witness :
    (computeBalances [⟨1, "A"⟩, ⟨2, "B"⟩] [⟨90, 1, [1, 2]⟩]).total = 0 :=
  (zero_sum_amended [⟨1, "A"⟩, ⟨2, "B"⟩] [⟨90, 1, [1, 2]⟩]).2 (by decide)

/-! Key-set lemmas for the balance map. -/

theorem BalMap.mem_keys_addTo (m : BalMap) (k j : Nat) (x : ℚ) (h : k ∈ m.keys) :
    k ∈ (m.addTo j x).keys := by
  by_cases hj : j ∈ m.keys
  · simpa [addTo, hj] using h
  · simp only [addTo, hj, if_false, List.mem_append]
    exact Or.inl h

theorem BalMap.self_mem_keys_addTo (m : BalMap) (k : Nat) (x : ℚ) :
    k ∈ (m.addTo k x).keys := by
  by_cases hk : k ∈ m.keys
  · simpa [addTo, hk] using hk
  · simp [addTo, hk]

theorem mem_keys_foldl_addTo (l : List Nat) (c : ℚ) (m : BalMap) (k : Nat) (h : k ∈ m.keys) :
    k ∈ (l.foldl (fun acc pid => acc.addTo pid c) m).keys := by
  induction l generalizing m with
  | nil => exact h
  | cons a t ih => exact ih _ (m.mem_keys_addTo k a c h)

theorem mem_keys_foldl_addTo_self (l : List Nat) (c : ℚ) (m : BalMap) (k : Nat) (h : k ∈ l) :
    k ∈ (l.foldl (fun acc pid => acc.addTo pid c) m).keys := by
  induction l generalizing m with
  | nil => cases h
  | cons a t ih =>
    rcases List.mem_cons.mp h with rfl | hkt
    · exact mem_keys_foldl_addTo t c _ k (m.self_mem_keys_addTo k c)
    · exact ih _ hkt

theorem mem_keys_applyExpense (m : BalMap) (e : Expense) (k : Nat) (h : k ∈ m.keys) :
    k ∈ (applyExpense m e).keys := by
  unfold applyExpense
  by_cases hp : e.participants = []
  · simpa [hp] using m.mem_keys_addTo k e.payer e.amount h
  · simp only [hp, if_false]
    exact mem_keys_foldl_addTo _ _ _ k (m.mem_keys_addTo k e.payer e.amount h)

theorem mem_keys_applyExpense_inserted (m : BalMap) (e : Expense) :
    e.payer ∈ (applyExpense m e).keys ∧ ∀ q ∈ e.participants, q ∈ (applyExpense m e).keys := by
  unfold applyExpense
  by_cases hp : e.participants = []
  · refine ⟨by simpa [hp] using m.self_mem_keys_addTo e.payer e.amount, ?_⟩
    intro q hq
    rw [hp] at hq
    cases hq
  · simp only [hp, if_false]
    exact ⟨mem_keys_foldl_addTo _ _ _ _ (m.self_mem_keys_addTo e.payer e.amount),
      fun q hq => mem_keys_foldl_addTo_self _ _ _ q hq⟩

theorem mem_keys_foldl_applyExpense (expenses : List Expense) (m : BalMap) (k : Nat)
    (h : k ∈ m.keys) : k ∈ (expenses.foldl applyExpense m).keys := by
  induction expenses generalizing m with
  | nil => exact h
  | cons e es ih => exact ih _ (mem_keys_applyExpense m e k h)

/-! Characterisation of the debtor and creditor partition. -/

theorem partitionDC_go (players : List Player) (bal : Nat → ℚ) (acc : List Entry × List Entry) :
    players.foldl
      (fun dc p =>
        if bal p.id < 0 then (dc.1 ++ [⟨p, |bal p.id|⟩], dc.2)
        else if 0 < bal p.id then (dc.1, dc.2 ++ [⟨p, bal p.id⟩]) else dc) acc
    = (acc.1 ++ players.filterMap (fun p => if bal p.id < 0 then some ⟨p, |bal p.id|⟩ else none),
       acc.2 ++ players.filterMap (fun p => if 0 < bal p.id then some ⟨p, bal p.id⟩ else none)) := by
  induction players generalizing acc with
  | nil => simp
  | cons p t ih =>
    simp only [List.foldl_cons, List.filterMap_cons]
    by_cases h1 : bal p.id < 0
    · have h2 : ¬ 0 < bal p.id := by linarith
      rw [if_pos h1, ih]
      simp [h1, h2]
    · by_cases h2 : 0 < bal p.id
      · rw [if_neg h1, if_pos h2, ih]
        simp [h1, h2]
      · rw [if_neg h1, if_neg h2, ih]
        simp [h1, h2]

/-- Normal form of partitionDC: the debtors are the players of negative
balance in encounter order with the absolute value as amount, the
creditors the players of positive balance with the balance as amount. -/
theorem partitionDC_eq (players : List Player) (bal : Nat → ℚ) :
    partitionDC players bal
      = (players.filterMap (fun p => if bal p.id < 0 then some ⟨p, |bal p.id|⟩ else none),
         players.filterMap (fun p => if 0 < bal p.id then some ⟨p, bal p.id⟩ else none)) := by
  unfold partitionDC
  rw [partitionDC_go]
  simp

theorem partitionDC_debtors_mem (players : List Player) (bal : Nat → ℚ) (en : Entry)
    (h : en ∈ (partitionDC players bal).1) :
    en.player ∈ players ∧ bal en.player.id < 0 ∧ en.amount = |bal en.player.id| := by
  rw [partitionDC_eq] at h
  simp only [List.mem_filterMap] at h
  obtain ⟨p, hp, hcond⟩ := h
  by_cases h1 : bal p.id < 0
  · rw [if_pos h1] at hcond
    cases hcond
    exact ⟨hp, h1, rfl⟩
  · rw [if_neg h1] at hcond
    cases hcond

theorem partitionDC_creditors_mem (players : List Player) (bal : Nat → ℚ) (en : Entry)
    (h : en ∈ (partitionDC players bal).2) :
    en.player ∈ players ∧ 0 < bal en.player.id ∧ en.amount = bal en.player.id := by
  rw [partitionDC_eq] at h
  simp only [List.mem_filterMap] at h
  obtain ⟨p, hp, hcond⟩ := h
  by_cases h1 : 0 < bal p.id
  · rw [if_pos h1] at hcond
    cases hcond
    exact ⟨hp, h1, rfl⟩
  · rw [if_neg h1] at hcond
    cases hcond

/-- C10 confirmed: every listed player id is a key of the computed balance
map; the payer and every participant of every expense are keys as well,
whether or not they are listed players (the defaultdict inserts them); the
key set can be a strict superset of the player ids (concrete instance: no
players, one expense between ids 7 and 8); and the debtor and creditor
partition draws its entries from the players list only. -/
theorem mem_keys_foldl_init_pres (players : List Player) (m : BalMap) (k : Nat)
    (h : k ∈ m.keys) : k ∈ (players.foldl (fun m p => m.addTo p.id 0) m).keys := by
  induction players generalizing m with
  | nil => exact h
  | cons a t ih => exact ih _ (m.mem_keys_addTo k a.id 0 h)

theorem mem_keys_foldl_init_self (players : List Player) (m : BalMap) (p : Player)
    (h : p ∈ players) : p.id ∈ (players.foldl (fun m p => m.addTo p.id 0) m).keys := by
  induction players generalizing m with
  | nil => cases h
  | cons a t ih =>
    rcases List.mem_cons.mp h with rfl | hpt
    · exact mem_keys_foldl_init_pres t _ p.id (m.self_mem_keys_addTo p.id 0)
    · exact ih _ hpt

theorem mem_keys_foldl_expense_inserted (expenses : List Expense) (m : BalMap) (e : Expense)
    (h : e ∈ expenses) :
    e.payer ∈ (expenses.foldl applyExpense m).keys
    ∧ ∀ q ∈ e.participants, q ∈ (expenses.foldl applyExpense m).keys := by
  induction expenses generalizing m with
  | nil => cases h
  | cons e0 es ih =>
    rcases List.mem_cons.mp h with rfl | ht
    · exact ⟨mem_keys_foldl_applyExpense es _ _ ((mem_keys_applyExpense_inserted m e).1),
        fun q hq =>
          mem_keys_foldl_applyExpense es _ _ ((mem_keys_applyExpense_inserted m e).2 q hq)⟩
    · exact ih _ ht

/-- C10 confirmed: every listed player id is a key of the computed balance
map; the payer and every participant of every expense are keys as well,
whether or not they are listed players (the defaultdict inserts them); the
key set can be a strict superset of the player ids (concrete instance: no
players, one expense between ids 7 and 8); and the debtor and creditor
partition draws its entries from the players list only. -/
theorem balance_keys_superset (players : List Player) (expenses : List Expense) :
    (∀ p ∈ players, p.id ∈ (computeBalances players expenses).keys)
    ∧ (∀ e ∈ expenses, e.payer ∈ (computeBalances players expenses).keys
        ∧ ∀ q ∈ e.participants, q ∈ (computeBalances players expenses).keys)
    ∧ (computeBalances [] [⟨10, 7, [8]⟩]).keys = [7, 8]
    ∧ (∀ (pl : List Player) (bal : Nat → ℚ),
        ∀ en ∈ (partitionDC pl bal).1 ++ (partitionDC pl bal).2, en.player ∈ pl) := by
  refine ⟨?_, ?_, ?_, ?_⟩
  · intro p hp
    exact mem_keys_foldl_applyExpense expenses _ p.id
      (mem_keys_foldl_init_self players BalMap.empty p hp)
  · intro e he
    exact mem_keys_foldl_expense_inserted expenses _ e he
  · simp [computeBalances, applyExpense, BalMap.addTo, BalMap.empty, Function.update,
      List.foldl]
  · intro pl bal en hen
    rcases List.mem_append.mp hen with hd | hc
    · exact (partitionDC_debtors_mem pl bal en hd).1
    · exact (partitionDC_creditors_mem pl bal en hc).1

/-- C10 witness: the statement applied to a concrete roster and expense
list in which the payer id 7 and participant id 8 are not listed
players. -/
theorem balance_keys_superset_witness :
    (7 : Nat) ∈ (computeBalances [⟨1, "A"⟩] [⟨10, 7, [8]⟩]).keys :=
  ((balance_keys_superset [⟨1, "A"⟩] [⟨10, 7, [8]⟩]).2.1 ⟨10, 7, [8]⟩ (by simp)).1

/-- C9 confirmed: the engine is a pure function of its inputs.  Two calls
on identical inputs give identical results, and the transaction sweep
reads the balance mapping only at the ids of the listed players, so any
two balance mappings that agree there give identical output. -/
theorem engine_deterministic (players : List Player) (expenses : List Expense)
    (pl : List Player) (bal bal2 : Nat → ℚ)
    (h : ∀ p ∈ pl, bal p.id = bal2 p.id) :
    computeBalances players expenses = computeBalances players expenses
    ∧ computeTransactions pl bal = computeTransactions pl bal2 := by
  refine ⟨rfl, ?_⟩
  have hpart : partitionDC pl bal = partitionDC pl bal2 := by
    rw [partitionDC_eq, partitionDC_eq]
    refine Prod.ext ?_ ?_
    · exact List.filterMap_congr (fun p hp => by rw [h p hp])
    · exact List.filterMap_congr (fun p hp => by rw [h p hp])
  unfold computeTransactions initState
  rw [hpart]

/-- C9 witness: two syntactically different balance mappings that agree on
the single listed player give the same transactions. -/
theorem engine_deterministic_witness :
    computeTransactions [⟨1, "A"⟩] (fun i => (i : ℚ) - 1)
      = computeTransactions [⟨1, "A"⟩] (fun i => if i = 1 then 0 else 42) :=
  (engine_deterministic [] [] [⟨1, "A"⟩] _ _ (by
    intro p hp
    rcases List.mem_singleton.mp hp with rfl
    norm_num)).2

/-! Non-termination of the sweep at a fixpoint state. -/

theorem stuck_forever (s : SweepState) (hfix : sweepStep s = s)
    (hne : ¬(s.debtors = [] ∨ s.creditors = [])) : ∀ fuel, sweepRun fuel s = none := by
  intro fuel
  induction fuel with
  | zero => simp only [sweepRun, hne, if_false]
  | succ f ih => simp only [sweepRun, hne, if_false, hfix, ih]

/-- Balances produced by the single expense of 0.02 paid by player 1 and
split between players 1 and 2: player 1 ends at +0.01 and player 2 at
-0.01, so the sweep starts with one debtor and one creditor both at
exactly 0.01. -/
theorem hang_init :
    initState [⟨1, "A"⟩, ⟨2, "B"⟩]
        (computeBalances [⟨1, "A"⟩, ⟨2, "B"⟩] [⟨1/50, 1, [1, 2]⟩]).val
      = ⟨[⟨⟨2, "B"⟩, 1/100⟩], [⟨⟨1, "A"⟩, 1/100⟩], []⟩ := by
  simp [initState, partitionDC, computeBalances, applyExpense, BalMap.addTo,
    BalMap.empty, Function.update, sortDesc, insertDesc]
  norm_num [insertDesc]

/-- State with the current debtor and creditor both at exactly 0.01 is a
fixpoint of the loop body: the minimum 0.01 is not strictly above the
emission threshold, so nothing is subtracted, and neither amount is
strictly below 0.01, so neither cursor advances. -/
theorem hang_fix :
    sweepStep ⟨[⟨⟨2, "B"⟩, 1/100⟩], [⟨⟨1, "A"⟩, 1/100⟩], []⟩
      = ⟨[⟨⟨2, "B"⟩, 1/100⟩], [⟨⟨1, "A"⟩, 1/100⟩], []⟩ := by
  norm_num [sweepStep]

/-- C2 code bug: the transaction sweep does NOT terminate for every input.
On the balances computed from the single expense of amount 0.02 paid by
player 1 and split between players 1 and 2 (balances +0.01 and -0.01),
the while loop of settle_up runs forever: no fuel makes the runner reach
an exit of the loop.  The spec guarantees termination, and its own step 4
(unconditional subtraction) would terminate here, but the source performs
the subtraction only when settle exceeds 0.01, so this state never
changes. -/
theorem sweep_no_termination :
    ∀ fuel, sweepRun fuel
      (initState [⟨1, "A"⟩, ⟨2, "B"⟩]
        (computeBalances [⟨1, "A"⟩, ⟨2, "B"⟩] [⟨1/50, 1, [1, 2]⟩]).val) = none := by
  rw [hang_init]
  exact stuck_forever _ hang_fix (by simp)

/-- C8 counterexample: the engine is not total over its whole domain.  On
the realisable input of two players and the single expense of amount 0.02
paid by player 1 and split between both players, computeTransactions
diverges (the fuelled runner gives none at the fuel bound that suffices
for every terminating run), because the start state is a fixpoint of the
loop body with both lists non-empty. -/
theorem engine_total_cex :
    computeTransactions [⟨1, "A"⟩, ⟨2, "B"⟩]
        (computeBalances [⟨1, "A"⟩, ⟨2, "B"⟩] [⟨1/50, 1, [1, 2]⟩]).val = none
    ∧ sweepStep ⟨[⟨⟨2, "B"⟩, 1/100⟩], [⟨⟨1, "A"⟩, 1/100⟩], []⟩
        = ⟨[⟨⟨2, "B"⟩, 1/100⟩], [⟨⟨1, "A"⟩, 1/100⟩], []⟩ := by
  constructor
  · have h3 : sweepRun 3
        (⟨[⟨⟨2, "B"⟩, 1/100⟩], [⟨⟨1, "A"⟩, 1/100⟩], []⟩ : SweepState) = none :=
      stuck_forever _ hang_fix (by simp) 3
    unfold computeTransactions
    rw [hang_init]
    simpa using h3
  · exact hang_fix

theorem foldl_init_val (players : List Player) (m : BalMap) (k : Nat) :
    (players.foldl (fun m p => m.addTo p.id 0) m).val k = m.val k := by
  induction players generalizing m with
  | nil => rfl
  | cons a t ih =>
    rw [List.foldl_cons, ih]
    simp only [BalMap.addTo, Function.update_apply, add_zero]
    split
    · next h => rw [h]
    · rfl

/-- C8 amended: the engine handles every enumerated edge case as the claim
states - empty roster gives an empty balance map and an empty transaction
list, an empty expense list gives all-zero balances and no transactions,
and an expense with an empty participant set only credits the payer, with
no division - but the engine is NOT total on its whole domain: the sweep
loops forever when the current debtor and creditor amounts are both
exactly 0.01 (see the counterexample). -/
theorem engine_edge_cases :
    (computeBalances [] []).keys = []
    ∧ (∀ bal : Nat → ℚ, computeTransactions [] bal = some [])
    ∧ (∀ (players : List Player) (k : Nat), (computeBalances players []).val k = 0)
    ∧ (∀ players : List Player,
        computeTransactions players (computeBalances players []).val = some [])
    ∧ (∀ (m : BalMap) (e : Expense), e.participants = [] →
        applyExpense m e = m.addTo e.payer e.amount) := by
  refine ⟨rfl, fun bal => rfl, ?_, ?_, ?_⟩
  · intro players k
    exact foldl_init_val players BalMap.empty k
  · intro players
    have hz : ∀ k, (computeBalances players []).val k = 0 :=
      fun k => foldl_init_val players BalMap.empty k
    have hpart : partitionDC players (computeBalances players []).val = ([], []) := by
      rw [partitionDC_eq]
      refine Prod.ext ?_ ?_
      · apply List.filterMap_eq_nil_iff.mpr
        intro p hp
        rw [hz p.id]
        norm_num
      · apply List.filterMap_eq_nil_iff.mpr
        intro p hp
        rw [hz p.id]
        norm_num
    unfold computeTransactions initState
    rw [hpart]
    rfl
  · intro m e h
    unfold applyExpense
    rw [if_pos h]

/-- C8 witness: the amended statement applied at concrete inputs, with the
hypothesis of the last conjunct discharged on an expense whose participant
list is empty. -/
theorem engine_edge_cases_witness :
    computeTransactions [] (fun _ => (7 : ℚ)) = some []
    ∧ applyExpense BalMap.empty ⟨50, 1, []⟩ = BalMap.empty.addTo 1 50 :=
  ⟨engine_edge_cases.2.1 (fun _ => (7 : ℚ)),
   engine_edge_cases.2.2.2.2 BalMap.empty ⟨50, 1, []⟩ rfl⟩

/-! Claim C3: the shape of one loop iteration. -/

/-- Step function written from the words of claim C3 (and of spec step 4):
settle is subtracted from both current amounts in EVERY iteration,
unconditionally, while the emission of the transaction stays guarded by
settle exceeding 0.01.  Compared against the source step sweepStep
below. -/
def sweepStepUncond (s : SweepState) : SweepState :=
  match s.debtors, s.creditors with
  | debtor :: ds, creditor :: cs =>
    let settle := min debtor.amount creditor.amount
    let d2 := Entry.mk debtor.player (debtor.amount - settle)
    let c2 := Entry.mk creditor.player (creditor.amount - settle)
    let txs2 :=
      if 1/100 < settle then
        s.txs ++ [Tx.mk debtor.player.name creditor.player.name (round2 settle)]
      else s.txs
    ⟨if d2.amount < 1/100 then ds else d2 :: ds,
     if c2.amount < 1/100 then cs else c2 :: cs,
     txs2⟩
  | _, _ => s

/-- Step function written from the amended claim: settle is computed as
the minimum of the two current amounts, and BOTH the emission of the
transaction and the subtraction of settle from the two amounts happen only
when settle exceeds 0.01; afterwards each cursor advances exactly when its
outstanding amount is below 0.01. -/
def sweepStepCond (s : SweepState) : SweepState :=
  match s.debtors, s.creditors with
  | debtor :: ds, creditor :: cs =>
    let settle := min debtor.amount creditor.amount
    let dAmt := if 1/100 < settle then debtor.amount - settle else debtor.amount
    let cAmt := if 1/100 < settle then creditor.amount - settle else creditor.amount
    let txs2 :=
      if 1/100 < settle then
        s.txs ++ [Tx.mk debtor.player.name creditor.player.name (round2 settle)]
      else s.txs
    ⟨if dAmt < 1/100 then ds else Entry.mk debtor.player dAmt :: ds,
     if cAmt < 1/100 then cs else Entry.mk creditor.player cAmt :: cs,
     txs2⟩
  | _, _ => s

/-- C3 counterexample: on the reachable state with one debtor at 5 and one
creditor at 0.009, the source iteration differs from the iteration the
claim describes: the source does not subtract (the debtor stays at 5),
while the claimed unconditional subtraction would leave the debtor at
4.991. -/
theorem step_subtraction_cex :
    sweepStep ⟨[⟨⟨1, "A"⟩, 5⟩], [⟨⟨2, "B"⟩, 9/1000⟩], []⟩
      ≠ sweepStepUncond ⟨[⟨⟨1, "A"⟩, 5⟩], [⟨⟨2, "B"⟩, 9/1000⟩], []⟩ := by
  norm_num [sweepStep, sweepStepUncond, min_def]

/-- C3 amended: in every iteration settle is the minimum of the two
current amounts, the subtraction of settle from both amounts happens
exactly when settle exceeds 0.01 (together with the emission, inside the
same conditional), and each cursor advances exactly when its remaining
amount is below 0.01: the source step coincides with the step function
written from this description on every state. -/
theorem step_subtraction_amended (s : SweepState) : sweepStep s = sweepStepCond s := by
  obtain ⟨ds, cs, txs⟩ := s
  cases ds with
  | nil => rfl
  | cons d dt =>
    cases cs with
    | nil => rfl
    | cons c ct =>
      by_cases h : 1/100 < min d.amount c.amount
      · simp only [sweepStep, sweepStepCond, if_pos h]
      · simp only [sweepStep, sweepStepCond, if_neg h]

/-! Unfolding lemmas for the sweep runner. -/

theorem sweepRun_succ_ne (fuel : Nat) (s : SweepState)
    (h : ¬(s.debtors = [] ∨ s.creditors = [])) :
    sweepRun (fuel + 1) s = sweepRun fuel (sweepStep s) := by
  simp [sweepRun, h]

theorem sweepRun_done (fuel : Nat) (s : SweepState) (h : s.debtors = [] ∨ s.creditors = []) :
    sweepRun fuel s = some s := by
  cases fuel
  · simp [sweepRun, h]
  · simp [sweepRun, h]

/-! Permutation, order and stability of the descending insertion sort. -/

theorem insertDesc_perm (x : Entry) (l : List Entry) : (insertDesc x l).Perm (x :: l) := by
  induction l with
  | nil => exact List.Perm.refl _
  | cons y ys ih =>
    by_cases h : x.amount < y.amount
    · rw [insertDesc, if_pos h]
      exact (ih.cons y).trans (List.Perm.swap x y ys)
    · rw [insertDesc, if_neg h]

theorem sortDesc_perm (l : List Entry) : (sortDesc l).Perm l := by
  induction l with
  | nil => exact List.Perm.refl _
  | cons x t ih =>
    have : sortDesc (x :: t) = insertDesc x (sortDesc t) := rfl
    rw [this]
    exact (insertDesc_perm x (sortDesc t)).trans (ih.cons x)

theorem insertDesc_sorted (x : Entry) (l : List Entry)
    (h : l.Pairwise (fun a b => b.amount ≤ a.amount)) :
    (insertDesc x l).Pairwise (fun a b => b.amount ≤ a.amount) := by
  induction l with
  | nil => simp [insertDesc]
  | cons y ys ih =>
    obtain ⟨hy, hys⟩ := List.pairwise_cons.mp h
    by_cases hcmp : x.amount < y.amount
    · rw [insertDesc, if_pos hcmp]
      refine List.pairwise_cons.mpr ⟨?_, ih hys⟩
      intro z hz
      rcases List.mem_cons.mp ((insertDesc_perm x ys).subset hz) with rfl | hzys
      · exact le_of_lt hcmp
      · exact hy z hzys
    · rw [insertDesc, if_neg hcmp]
      refine List.pairwise_cons.mpr ⟨?_, h⟩
      intro z hz
      rcases List.mem_cons.mp hz with rfl | hzys
      · exact le_of_not_lt hcmp
      · exact le_trans (hy z hzys) (le_of_not_lt hcmp)

theorem sortDesc_sorted (l : List Entry) :
    (sortDesc l).Pairwise (fun a b => b.amount ≤ a.amount) := by
  induction l with
  | nil => simp [sortDesc]
  | cons x t ih => exact insertDesc_sorted x (sortDesc t) ih

theorem insertDesc_filter_eq (x : Entry) (l : List Entry) (a : ℚ) (hx : x.amount = a) :
    (insertDesc x l).filter (fun e => decide (e.amount = a))
      = x :: l.filter (fun e => decide (e.amount = a)) := by
  induction l with
  | nil => simp [insertDesc, hx]
  | cons y ys ih =>
    by_cases hcmp : x.amount < y.amount
    · have hy : ¬ y.amount = a := by
        intro hya
        rw [hya, ← hx] at hcmp
        exact lt_irrefl _ hcmp
      rw [insertDesc, if_pos hcmp, List.filter_cons, List.filter_cons]
      simp [hy, ih]
    · rw [insertDesc, if_neg hcmp, List.filter_cons]
      simp [hx]

theorem insertDesc_filter_ne (x : Entry) (l : List Entry) (a : ℚ) (hx : ¬ x.amount = a) :
    (insertDesc x l).filter (fun e => decide (e.amount = a))
      = l.filter (fun e => decide (e.amount = a)) := by
  induction l with
  | nil => simp [insertDesc, hx]
  | cons y ys ih =>
    by_cases hcmp : x.amount < y.amount
    · rw [insertDesc, if_pos hcmp, List.filter_cons, List.filter_cons, ih]
    · rw [insertDesc, if_neg hcmp, List.filter_cons]
      simp [hx]

theorem sortDesc_stable (l : List Entry) (a : ℚ) :
    (sortDesc l).filter (fun e => decide (e.amount = a))
      = l.filter (fun e => decide (e.amount = a)) := by
  induction l with
  | nil => rfl
  | cons x t ih =>
    have hdef : sortDesc (x :: t) = insertDesc x (sortDesc t) := rfl
    rw [hdef]
    by_cases hx : x.amount = a
    · rw [insertDesc_filter_eq x (sortDesc t) a hx, ih, List.filter_cons]
      simp [hx]
    · rw [insertDesc_filter_ne x (sortDesc t) a hx, ih, List.filter_cons]
      simp [hx]

theorem scenario5_init :
    initState [⟨1, "A"⟩, ⟨2, "B"⟩, ⟨3, "C"⟩, ⟨4, "D"⟩]
      (fun i => if i = 1 then -40 else if i = 2 then -10 else if i = 3 then 30
        else if i = 4 then 20 else 0)
      = ⟨[⟨⟨1, "A"⟩, 40⟩, ⟨⟨2, "B"⟩, 10⟩], [⟨⟨3, "C"⟩, 30⟩, ⟨⟨4, "D"⟩, 20⟩], []⟩ := by
  simp [initState, partitionDC, sortDesc, insertDesc]
  norm_num [insertDesc]

theorem scenario5_step1 :
    sweepStep ⟨[⟨⟨1, "A"⟩, 40⟩, ⟨⟨2, "B"⟩, 10⟩], [⟨⟨3, "C"⟩, 30⟩, ⟨⟨4, "D"⟩, 20⟩], []⟩
      = ⟨[⟨⟨1, "A"⟩, 10⟩, ⟨⟨2, "B"⟩, 10⟩], [⟨⟨4, "D"⟩, 20⟩], [⟨"A", "C", 30⟩]⟩ := by
  norm_num [sweepStep, round2, roundHalfEven, Int.fract, round_eq, min_def]

theorem scenario5_step2 :
    sweepStep ⟨[⟨⟨1, "A"⟩, 10⟩, ⟨⟨2, "B"⟩, 10⟩], [⟨⟨4, "D"⟩, 20⟩], [⟨"A", "C", 30⟩]⟩
      = ⟨[⟨⟨2, "B"⟩, 10⟩], [⟨⟨4, "D"⟩, 10⟩], [⟨"A", "C", 30⟩, ⟨"A", "D", 10⟩]⟩ := by
  norm_num [sweepStep, round2, roundHalfEven, Int.fract, round_eq, min_def]

theorem scenario5_step3 :
    sweepStep ⟨[⟨⟨2, "B"⟩, 10⟩], [⟨⟨4, "D"⟩, 10⟩], [⟨"A", "C", 30⟩, ⟨"A", "D", 10⟩]⟩
      = ⟨[], [], [⟨"A", "C", 30⟩, ⟨"A", "D", 10⟩, ⟨"B", "D", 10⟩]⟩ := by
  norm_num [sweepStep, round2, roundHalfEven, Int.fract, round_eq, min_def]

theorem scenario5_run :
    sweepRun 5 (initState [⟨1, "A"⟩, ⟨2, "B"⟩, ⟨3, "C"⟩, ⟨4, "D"⟩]
      (fun i => if i = 1 then -40 else if i = 2 then -10 else if i = 3 then 30
        else if i = 4 then 20 else 0))
      = some ⟨[], [], [⟨"A", "C", 30⟩, ⟨"A", "D", 10⟩, ⟨"B", "D", 10⟩]⟩ := by
  rw [scenario5_init,
    show (5:Nat) = 4+1 from rfl, sweepRun_succ_ne _ _ (by simp), scenario5_step1,
    show (4:Nat) = 3+1 from rfl, sweepRun_succ_ne _ _ (by simp), scenario5_step2,
    show (3:Nat) = 2+1 from rfl, sweepRun_succ_ne _ _ (by simp), scenario5_step3,
    sweepRun_done _ _ (by simp)]

/-- C5 confirmed: on the four-player input with balances -40, -10, +30,
+20 the sweep emits exactly the three claimed transactions in order
(largest debtor to largest creditor for 30.00, then 10.00 to the second
creditor, then the second debtor pays 10.00); and in general the two work
lists are sorted by a stable descending sort: the sorted list is a
permutation of the encounter-order list, its amounts are descending, and
entries of equal amount keep their encounter order (the sublist of any
fixed amount is unchanged). -/
theorem greedy_order (a : ℚ) (l : List Entry) :
    computeTransactions [⟨1, "A"⟩, ⟨2, "B"⟩, ⟨3, "C"⟩, ⟨4, "D"⟩]
        (fun i => if i = 1 then -40 else if i = 2 then -10 else if i = 3 then 30
          else if i = 4 then 20 else 0)
      = some [⟨"A", "C", 30⟩, ⟨"A", "D", 10⟩, ⟨"B", "D", 10⟩]
    ∧ (sortDesc l).Perm l
    ∧ (sortDesc l).Pairwise (fun d e => e.amount ≤ d.amount)
    ∧ (sortDesc l).filter (fun e => decide (e.amount = a))
        = l.filter (fun e => decide (e.amount = a)) := by
  refine ⟨?_, sortDesc_perm l, sortDesc_sorted l, sortDesc_stable l a⟩
  unfold computeTransactions
  rw [scenario5_init]
  show Option.map SweepState.txs (sweepRun 5
    (⟨[⟨⟨1, "A"⟩, 40⟩, ⟨⟨2, "B"⟩, 10⟩], [⟨⟨3, "C"⟩, 30⟩, ⟨⟨4, "D"⟩, 20⟩], []⟩ : SweepState)) = _
  rw [← scenario5_init, scenario5_run]
  rfl

/-! Generic invariant preservation through the sweep runner. -/

theorem sweepRun_invariant (P : SweepState → Prop)
    (hstep : ∀ s, s.debtors ≠ [] → s.creditors ≠ [] → P s → P (sweepStep s)) :
    ∀ (fuel : Nat) (s s' : SweepState), P s → sweepRun fuel s = some s' →
      P s' ∧ (s'.debtors = [] ∨ s'.creditors = []) := by
  intro fuel
  induction fuel with
  | zero =>
    intro s s' hP hrun
    by_cases hc : s.debtors = [] ∨ s.creditors = []
    · rw [sweepRun_done 0 s hc] at hrun
      cases hrun
      exact ⟨hP, hc⟩
    · rw [show sweepRun 0 s = none by simp [sweepRun, hc]] at hrun
      cases hrun
  | succ f ih =>
    intro s s' hP hrun
    by_cases hc : s.debtors = [] ∨ s.creditors = []
    · rw [sweepRun_done (f + 1) s hc] at hrun
      cases hrun
      exact ⟨hP, hc⟩
    · rw [sweepRun_succ_ne f s hc] at hrun
      have hd : s.debtors ≠ [] := fun h => hc (Or.inl h)
      have hcr : s.creditors ≠ [] := fun h => hc (Or.inr h)
      exact ih _ _ (hstep s hd hcr hP) hrun

/-- Normal form of one loop iteration on non-empty lists, with the two
branches of the emission conditional spelled out. -/
theorem sweepStep_cons (d c : Entry) (ds cs : List Entry) (txs : List Tx) :
    sweepStep ⟨d :: ds, c :: cs, txs⟩
      = if 1/100 < min d.amount c.amount then
          (⟨(if d.amount - min d.amount c.amount < 1/100 then ds
              else ⟨d.player, d.amount - min d.amount c.amount⟩ :: ds),
            (if c.amount - min d.amount c.amount < 1/100 then cs
              else ⟨c.player, c.amount - min d.amount c.amount⟩ :: cs),
            txs ++ [⟨d.player.name, c.player.name, round2 (min d.amount c.amount)⟩]⟩ : SweepState)
        else
          ⟨(if d.amount < 1/100 then ds else ⟨d.player, d.amount⟩ :: ds),
           (if c.amount < 1/100 then cs else ⟨c.player, c.amount⟩ :: cs),
           txs⟩ := by
  by_cases h : 1/100 < min d.amount c.amount
  · simp only [sweepStep, if_pos h]
  · simp only [sweepStep, if_neg h]

/-! Claim C7: provenance of the transaction endpoints. -/

/-- Invariant for the no-self-payment argument: every debtor entry stems
from a listed player of negative balance, every creditor entry from a
listed player of positive balance, and every emitted transaction names a
listed debtor player and a listed creditor player. -/
def TxInv (players : List Player) (bal : Nat → ℚ) (s : SweepState) : Prop :=
  (∀ en ∈ s.debtors, en.player ∈ players ∧ bal en.player.id < 0)
  ∧ (∀ en ∈ s.creditors, en.player ∈ players ∧ 0 < bal en.player.id)
  ∧ (∀ t ∈ s.txs, ∃ pd ∈ players, ∃ pc ∈ players,
      bal pd.id < 0 ∧ 0 < bal pc.id ∧ t.fromName = pd.name ∧ t.toName = pc.name)

theorem TxInv_step (players : List Player) (bal : Nat → ℚ) (s : SweepState)
    (hd : s.debtors ≠ []) (hc : s.creditors ≠ []) (h : TxInv players bal s) :
    TxInv players bal (sweepStep s) := by
  obtain ⟨dl, cl, txs⟩ := s
  cases dl with
  | nil => exact absurd rfl hd
  | cons d ds =>
    cases cl with
    | nil => exact absurd rfl hc
    | cons c cs =>
      obtain ⟨hD, hC, hT⟩ := h
      have hdd := hD d (List.mem_cons_self d ds)
      have hcc := hC c (List.mem_cons_self c cs)
      rw [sweepStep_cons]
      by_cases hs : 1/100 < min d.amount c.amount
      · rw [if_pos hs]
        refine ⟨?_, ?_, ?_⟩
        · intro en hen
          by_cases hdrop : d.amount - min d.amount c.amount < 1/100
          · rw [if_pos hdrop] at hen
            exact hD en (List.mem_cons_of_mem d hen)
          · rw [if_neg hdrop] at hen
            rcases List.mem_cons.mp hen with rfl | htl
            · exact hdd
            · exact hD en (List.mem_cons_of_mem d htl)
        · intro en hen
          by_cases hdrop : c.amount - min d.amount c.amount < 1/100
          · rw [if_pos hdrop] at hen
            exact hC en (List.mem_cons_of_mem c hen)
          · rw [if_neg hdrop] at hen
            rcases List.mem_cons.mp hen with rfl | htl
            · exact hcc
            · exact hC en (List.mem_cons_of_mem c htl)
        · intro t ht
          rcases List.mem_append.mp ht with hold | hnew
          · exact hT t hold
          · rcases List.mem_singleton.mp hnew with rfl
            exact ⟨d.player, hdd.1, c.player, hcc.1, hdd.2, hcc.2, rfl, rfl⟩
      · rw [if_neg hs]
        refine ⟨?_, ?_, hT⟩
        · intro en hen
          by_cases hdrop : d.amount < 1/100
          · rw [if_pos hdrop] at hen
            exact hD en (List.mem_cons_of_mem d hen)
          · rw [if_neg hdrop] at hen
            exact hD en hen
        · intro en hen
          by_cases hdrop : c.amount < 1/100
          · rw [if_pos hdrop] at hen
            exact hC en (List.mem_cons_of_mem c hen)
          · rw [if_neg hdrop] at hen
            exact hC en hen

theorem TxInv_init (players : List Player) (bal : Nat → ℚ) :
    TxInv players bal (initState players bal) := by
  refine ⟨?_, ?_, ?_⟩
  · intro en hen
    have h2 : en ∈ (partitionDC players bal).1 :=
      (sortDesc_perm (partitionDC players bal).1).subset hen
    obtain ⟨hp, hneg, _⟩ := partitionDC_debtors_mem players bal en h2
    exact ⟨hp, hneg⟩
  · intro en hen
    have h2 : en ∈ (partitionDC players bal).2 :=
      (sortDesc_perm (partitionDC players bal).2).subset hen
    obtain ⟨hp, hpos, _⟩ := partitionDC_creditors_mem players bal en h2
    exact ⟨hp, hpos⟩
  · intro t ht
    cases ht

/-- C7 confirmed: when the listed players carry pairwise distinct names
(the database declares the name column unique), no emitted transaction
has equal from and to fields: every transaction names a debtor player
(negative balance) and a creditor player (positive balance), which are
necessarily different players and hence carry different names. -/
theorem no_self_payment (players : List Player) (bal : Nat → ℚ) (fuel : Nat)
    (s' : SweepState) (hnames : (players.map Player.name).Nodup)
    (hrun : sweepRun fuel (initState players bal) = some s') :
    ∀ t ∈ s'.txs, t.fromName ≠ t.toName := by
  have hfin := sweepRun_invariant (TxInv players bal)
    (fun s hd hc hP => TxInv_step players bal s hd hc hP) fuel _ s'
    (TxInv_init players bal) hrun
  intro t ht
  obtain ⟨pd, hpd, pc, hpc, hneg, hpos, hfrom, hto⟩ := hfin.1.2.2 t ht
  rw [hfrom, hto]
  intro heq
  have hpp : pd = pc := List.inj_on_of_nodup_map hnames hpd hpc heq
  rw [hpp] at hneg
  exact absurd hpos (not_lt_of_lt hneg)

/-- C7 witness: the theorem applied to the concrete four-player run whose
first transaction goes from the player named A to the player named C. -/
theorem no_self_payment_witness :
    (Tx.mk "A" "C" 30).fromName ≠ (Tx.mk "A" "C" 30).toName :=
  no_self_payment [⟨1, "A"⟩, ⟨2, "B"⟩, ⟨3, "C"⟩, ⟨4, "D"⟩]
    (fun i => if i = 1 then -40 else if i = 2 then -10 else if i = 3 then 30
      else if i = 4 then 20 else 0) 5
    ⟨[], [], [⟨"A", "C", 30⟩, ⟨"A", "D", 10⟩, ⟨"B", "D", 10⟩]⟩
    (by decide) scenario5_run (Tx.mk "A" "C" 30) (by simp)

/-! Quantitative bookkeeping: totals of entry lists and transaction lists,
positive and negative balance mass, and the rounding error bound. -/

/-- Sum of the outstanding amounts of a work list. -/
def entryTotal (l : List Entry) : ℚ := (l.map Entry.amount).sum

/-- Sum of the amounts of a list of transactions. -/
def txTotal (l : List Tx) : ℚ := (l.map Tx.amount).sum

/-- Total positive balance mass over the listed players, the quantity
sum(max(b, 0)) of the claim. -/
def posMass (players : List Player) (bal : Nat → ℚ) : ℚ :=
  (players.map (fun p => max (bal p.id) 0)).sum

/-- Total negative balance mass (outstanding debt) over the listed
players. -/
def negMass (players : List Player) (bal : Nat → ℚ) : ℚ :=
  (players.map (fun p => max (-(bal p.id)) 0)).sum

theorem entryTotal_nil : entryTotal [] = 0 := rfl

theorem entryTotal_cons (e : Entry) (l : List Entry) :
    entryTotal (e :: l) = e.amount + entryTotal l := by
  simp [entryTotal]

theorem entryTotal_nonneg (l : List Entry) (h : ∀ en ∈ l, 0 ≤ en.amount) :
    0 ≤ entryTotal l := by
  induction l with
  | nil => exact le_refl 0
  | cons e t ih =>
    rw [entryTotal_cons]
    have he := h e (List.mem_cons_self e t)
    have ht := ih (fun en hen => h en (List.mem_cons_of_mem e hen))
    linarith

theorem txTotal_append_single (l : List Tx) (t : Tx) :
    txTotal (l ++ [t]) = txTotal l + t.amount := by
  simp [txTotal]

theorem abs_roundHalfEven_sub_le (x : ℚ) : |(roundHalfEven x : ℚ) - x| ≤ 1/2 := by
  unfold roundHalfEven
  by_cases h : Int.fract x = 1/2
  · rw [if_pos h]
    have hfl := Int.floor_add_fract x
    rw [h] at hfl
    have hx : x = (⌊x⌋ : ℚ) + 1/2 := by linarith
    rcases Int.even_or_odd ⌊x⌋ with he | ho
    · obtain ⟨m, hm⟩ := he
      have hx2 : x / 2 = (m : ℚ) + 1/4 := by
        rw [hx, hm]
        push_cast
        ring
      have hr : round (x / 2) = m := by
        rw [hx2, add_comm, round_add_int]
        norm_num [round_eq]
      rw [hr, hx, hm]
      push_cast
      rw [show (2 * (m:ℚ)) - (((m:ℚ) + m) + 1/2) = -(1/2) by ring, abs_neg]
      rw [abs_of_pos (by norm_num : (0:ℚ) < 1/2)]
    · obtain ⟨m, hm⟩ := ho
      have hx2 : x / 2 = (m : ℚ) + 3/4 := by
        rw [hx, hm]
        push_cast
        ring
      have hr : round (x / 2) = m + 1 := by
        rw [hx2, add_comm, round_add_int]
        norm_num [round_eq]
        ring
      rw [hr, hx, hm]
      push_cast
      rw [show (2 * ((m:ℚ) + 1)) - ((2*(m:ℚ) + 1) + 1/2) = 1/2 by ring]
      rw [abs_of_pos (by norm_num : (0:ℚ) < 1/2)]
  · rw [if_neg h]
    rw [abs_sub_comm]
    exact abs_sub_round x

theorem round2_le (q : ℚ) : round2 q ≤ q + 1/200 := by
  have h := abs_roundHalfEven_sub_le (q * 100)
  rw [abs_le] at h
  unfold round2
  have h2 := h.2
  linarith

theorem le_round2 (q : ℚ) : q - 1/200 ≤ round2 q := by
  have h := abs_roundHalfEven_sub_le (q * 100)
  rw [abs_le] at h
  unfold round2
  have h1 := h.1
  linarith

/-- Characterisation of the advance of one cursor: the kept or dropped
head entry of a work list, with the dropped residue r and the drop count
k. -/
theorem advance_char (p : Player) (amt : ℚ) (tail : List Entry)
    (hamt : 0 ≤ amt) (htail : ∀ en ∈ tail, 0 ≤ en.amount) :
    ∃ (l : List Entry) (r : ℚ) (k : ℕ),
      (if amt < 1/100 then tail else (⟨p, amt⟩ : Entry) :: tail) = l
      ∧ entryTotal l = amt + entryTotal tail - r
      ∧ l.length + k = tail.length + 1
      ∧ 0 ≤ r ∧ r ≤ (k : ℚ)/100 ∧ k ≤ 1
      ∧ (∀ en ∈ l, 0 ≤ en.amount) := by
  by_cases hdrop : amt < 1/100
  · refine ⟨tail, amt, 1, if_pos hdrop, by simp, by simp, hamt, ?_, le_refl 1, htail⟩
    push_cast
    linarith
  · refine ⟨(⟨p, amt⟩ : Entry) :: tail, 0, 0, if_neg hdrop, ?_, by simp, le_refl 0,
      by norm_num, Nat.zero_le 1, ?_⟩
    · rw [entryTotal_cons]
      ring
    · intro en hen
      rcases List.mem_cons.mp hen with rfl | ht
      · exact hamt
      · exact htail en ht

theorem txTotal_snoc (l : List Tx) (a b : String) (x : ℚ) :
    txTotal (l ++ [⟨a, b, x⟩]) = txTotal l + x := by
  simp [txTotal]

/-- Quantitative invariant of the sweep, with D0 and C0 the starting
debtor and creditor totals and n0 the starting number of entries: all
outstanding amounts stay non-negative, the entry count never grows, the
emitted total is bounded above by the settled mass of either side plus
half a cent per transaction, bounded below by the settled creditor mass
minus half a cent per transaction and a cent per dropped entry, and the
difference of the two side totals drifts from its starting value by at
most a cent per dropped entry. -/
def QuantInv (D0 C0 : ℚ) (n0 : ℕ) (s : SweepState) : Prop :=
  (∀ en ∈ s.debtors, 0 ≤ en.amount)
  ∧ (∀ en ∈ s.creditors, 0 ≤ en.amount)
  ∧ s.debtors.length + s.creditors.length ≤ n0
  ∧ txTotal s.txs ≤ (C0 - entryTotal s.creditors) + (s.txs.length : ℚ)/200
  ∧ txTotal s.txs ≤ (D0 - entryTotal s.debtors) + (s.txs.length : ℚ)/200
  ∧ (C0 - entryTotal s.creditors)
      ≤ txTotal s.txs + (s.txs.length : ℚ)/200
        + ((n0 : ℚ) - ((s.debtors.length + s.creditors.length : ℕ) : ℚ))/100
  ∧ |(entryTotal s.debtors - entryTotal s.creditors) - (D0 - C0)|
      ≤ ((n0 : ℚ) - ((s.debtors.length + s.creditors.length : ℕ) : ℚ))/100

theorem QuantInv_step (D0 C0 : ℚ) (n0 : ℕ) (s : SweepState)
    (hd : s.debtors ≠ []) (hc : s.creditors ≠ []) (h : QuantInv D0 C0 n0 s) :
    QuantInv D0 C0 n0 (sweepStep s) := by
  obtain ⟨dl, cl, txs⟩ := s
  cases dl with
  | nil => exact absurd rfl hd
  | cons d ds =>
  cases cl with
  | nil => exact absurd rfl hc
  | cons c cs =>
  obtain ⟨hDnn, hCnn, hLen, hUpC, hUpD, hLow, hDiff⟩ := h
  have hd0 : 0 ≤ d.amount := hDnn d (List.mem_cons_self d ds)
  have hc0 : 0 ≤ c.amount := hCnn c (List.mem_cons_self c cs)
  have hdsnn : ∀ en ∈ ds, 0 ≤ en.amount := fun en hen => hDnn en (List.mem_cons_of_mem d hen)
  have hcsnn : ∀ en ∈ cs, 0 ≤ en.amount := fun en hen => hCnn en (List.mem_cons_of_mem c hen)
  simp only [entryTotal_cons, List.length_cons] at hUpC hUpD hLow hDiff hLen
  push_cast at hLow hDiff
  have hLenQ : (ds.length : ℚ) + 1 + ((cs.length : ℚ) + 1) ≤ (n0 : ℚ) := by
    exact_mod_cast hLen
  rw [abs_le] at hDiff
  rw [sweepStep_cons]
  by_cases hemit : 1/100 < min d.amount c.amount
  · rw [if_pos hemit]
    have hsd : min d.amount c.amount ≤ d.amount := min_le_left _ _
    have hsc : min d.amount c.amount ≤ c.amount := min_le_right _ _
    obtain ⟨Dl, rd, kd, hDeq, hDtot, hDlen, hrd0, hrdk, hkd1, hDnn2⟩ :=
      advance_char d.player (d.amount - min d.amount c.amount) ds (by linarith) hdsnn
    obtain ⟨Cl, rc, kc, hCeq, hCtot, hClen, hrc0, hrck, hkc1, hCnn2⟩ :=
      advance_char c.player (c.amount - min d.amount c.amount) cs (by linarith) hcsnn
    rw [hDeq, hCeq]
    have hDlenQ : (Dl.length : ℚ) + kd = (ds.length : ℚ) + 1 := by exact_mod_cast hDlen
    have hClenQ : (Cl.length : ℚ) + kc = (cs.length : ℚ) + 1 := by exact_mod_cast hClen
    have hr2u := round2_le (min d.amount c.amount)
    have hr2l := le_round2 (min d.amount c.amount)
    refine ⟨hDnn2, hCnn2, by dsimp only; omega, ?_, ?_, ?_, ?_⟩
    · rw [txTotal_snoc]
      simp only [List.length_append, List.length_singleton]
      push_cast
      linarith
    · rw [txTotal_snoc]
      simp only [List.length_append, List.length_singleton]
      push_cast
      linarith
    · rw [txTotal_snoc]
      simp only [List.length_append, List.length_singleton]
      push_cast
      linarith
    · rw [abs_le]
      simp only [List.length_append, List.length_singleton]
      push_cast
      constructor
      · linarith
      · linarith
  · rw [if_neg hemit]
    obtain ⟨Dl, rd, kd, hDeq, hDtot, hDlen, hrd0, hrdk, hkd1, hDnn2⟩ :=
      advance_char d.player d.amount ds hd0 hdsnn
    obtain ⟨Cl, rc, kc, hCeq, hCtot, hClen, hrc0, hrck, hkc1, hCnn2⟩ :=
      advance_char c.player c.amount cs hc0 hcsnn
    rw [hDeq, hCeq]
    have hDlenQ : (Dl.length : ℚ) + kd = (ds.length : ℚ) + 1 := by exact_mod_cast hDlen
    have hClenQ : (Cl.length : ℚ) + kc = (cs.length : ℚ) + 1 := by exact_mod_cast hClen
    refine ⟨hDnn2, hCnn2, by dsimp only; omega, ?_, ?_, ?_, ?_⟩
    · push_cast
      linarith
    · push_cast
      linarith
    · push_cast
      linarith
    · rw [abs_le]
      push_cast
      constructor
      · linarith
      · linarith

theorem entryTotal_sortDesc (l : List Entry) : entryTotal (sortDesc l) = entryTotal l := by
  unfold entryTotal
  exact List.Perm.sum_eq ((sortDesc_perm l).map Entry.amount)

theorem partition_debtors_total (players : List Player) (bal : Nat → ℚ) :
    entryTotal (partitionDC players bal).1 = negMass players bal := by
  rw [partitionDC_eq]
  show entryTotal (players.filterMap fun p =>
    if bal p.id < 0 then some ⟨p, |bal p.id|⟩ else none) = _
  induction players with
  | nil => rfl
  | cons p t ih =>
    by_cases h1 : bal p.id < 0
    · rw [List.filterMap_cons_some (by rw [if_pos h1]), entryTotal_cons, ih]
      unfold negMass
      rw [List.map_cons, List.sum_cons]
      rw [show |bal p.id| = max (-(bal p.id)) 0 by
        rw [abs_of_neg h1, max_eq_left (by linarith)]]
    · rw [List.filterMap_cons_none (by rw [if_neg h1]), ih]
      unfold negMass
      rw [List.map_cons, List.sum_cons, max_eq_right (by linarith), zero_add]

theorem partition_creditors_total (players : List Player) (bal : Nat → ℚ) :
    entryTotal (partitionDC players bal).2 = posMass players bal := by
  rw [partitionDC_eq]
  show entryTotal (players.filterMap fun p =>
    if 0 < bal p.id then some ⟨p, bal p.id⟩ else none) = _
  induction players with
  | nil => rfl
  | cons p t ih =>
    by_cases h1 : 0 < bal p.id
    · rw [List.filterMap_cons_some (by rw [if_pos h1]), entryTotal_cons, ih]
      unfold posMass
      rw [List.map_cons, List.sum_cons, max_eq_left (by linarith)]
    · rw [List.filterMap_cons_none (by rw [if_neg h1]), ih]
      unfold posMass
      rw [List.map_cons, List.sum_cons, max_eq_right (by linarith), zero_add]

theorem negMass_sub_posMass (players : List Player) (bal : Nat → ℚ) :
    negMass players bal - posMass players bal
      = -((players.map (fun p => bal p.id)).sum) := by
  induction players with
  | nil => simp [negMass, posMass]
  | cons p t ih =>
    unfold negMass posMass at ih ⊢
    rw [List.map_cons, List.sum_cons, List.map_cons, List.sum_cons,
      List.map_cons, List.sum_cons]
    rcases le_total (bal p.id) 0 with h | h
    · rw [max_eq_left (by linarith), max_eq_right h]
      linarith
    · rw [max_eq_right (by linarith), max_eq_left h]
      linarith

theorem QuantInv_init (players : List Player) (bal : Nat → ℚ) :
    QuantInv (entryTotal (initState players bal).debtors)
      (entryTotal (initState players bal).creditors)
      ((initState players bal).debtors.length + (initState players bal).creditors.length)
      (initState players bal) := by
  have htxs : (initState players bal).txs = [] := rfl
  refine ⟨?_, ?_, le_refl _, ?_, ?_, ?_, ?_⟩
  · intro en hen
    have h2 := (sortDesc_perm _).subset hen
    obtain ⟨_, _, hamt⟩ := partitionDC_debtors_mem players bal en h2
    rw [hamt]
    exact abs_nonneg _
  · intro en hen
    have h2 := (sortDesc_perm _).subset hen
    obtain ⟨_, hpos, hamt⟩ := partitionDC_creditors_mem players bal en h2
    rw [hamt]
    exact le_of_lt hpos
  · rw [htxs]
    simp [txTotal]
  · rw [htxs]
    simp [txTotal]
  · rw [htxs]
    simp [txTotal]
  · simp

/-- C6 amended, main bound: for any input whose balances sum to zero over
the listed players, and any terminating run of the sweep, the emitted
transaction total differs from the total positive balance mass by at most
two cents per starting work-list entry plus half a cent per emitted
transaction.  The exact claimed tolerance of 0.01 per transaction is
refuted separately: positive mass that never meets a matching debtor, or
that falls below the 0.01 threshold, is dropped without any transaction
accounting for it. -/
theorem tx_conservation (players : List Player) (bal : Nat → ℚ) (fuel : Nat)
    (s' : SweepState)
    (hzero : (players.map (fun p => bal p.id)).sum = 0)
    (hrun : sweepRun fuel (initState players bal) = some s') :
    |txTotal s'.txs - posMass players bal|
      ≤ ((((initState players bal).debtors.length
            + (initState players bal).creditors.length : ℕ)) : ℚ)/50
        + (s'.txs.length : ℚ)/200 := by
  have hfin := sweepRun_invariant
    (QuantInv (entryTotal (initState players bal).debtors)
      (entryTotal (initState players bal).creditors)
      ((initState players bal).debtors.length + (initState players bal).creditors.length))
    (fun s hd hc hP => QuantInv_step _ _ _ s hd hc hP) fuel _ s'
    (QuantInv_init players bal) hrun
  obtain ⟨⟨hDnn, hCnn, hLen, hUpC, hUpD, hLow, hDiff⟩, hfinal⟩ := hfin
  have hC0 : entryTotal (initState players bal).creditors = posMass players bal := by
    show entryTotal (sortDesc (partitionDC players bal).2) = _
    rw [entryTotal_sortDesc, partition_creditors_total]
  have hD0 : entryTotal (initState players bal).debtors = negMass players bal := by
    show entryTotal (sortDesc (partitionDC players bal).1) = _
    rw [entryTotal_sortDesc, partition_debtors_total]
  have hD0C0 : entryTotal (initState players bal).debtors
      = entryTotal (initState players bal).creditors := by
    rw [hD0, hC0]
    have hsub := negMass_sub_posMass players bal
    rw [hzero] at hsub
    linarith
  have hC2nn : 0 ≤ entryTotal s'.creditors := entryTotal_nonneg _ hCnn
  have hD2nn : 0 ≤ entryTotal s'.debtors := entryTotal_nonneg _ hDnn
  have hL2Q : ((s'.debtors.length + s'.creditors.length : ℕ) : ℚ)
      ≤ (((initState players bal).debtors.length
          + (initState players bal).creditors.length : ℕ) : ℚ) := by
    exact_mod_cast hLen
  have hL2nn : (0:ℚ) ≤ ((s'.debtors.length + s'.creditors.length : ℕ) : ℚ) := by
    positivity
  have hTlen : (0:ℚ) ≤ (s'.txs.length : ℚ) := by positivity
  rw [abs_le] at hDiff ⊢
  rw [← hC0]
  constructor
  · rcases hfinal with hDe | hCe
    · have hD2 : entryTotal s'.debtors = 0 := by rw [hDe]; rfl
      have h1 := hDiff.1
      rw [hD2, ← hD0C0] at h1
      linarith
    · have hC2 : entryTotal s'.creditors = 0 := by rw [hCe]; rfl
      rw [hC2] at hLow
      linarith
  · linarith

/-- C6 counterexample: a lone creditor with balance +50 produces no
transactions at all (there is no debtor), so the emitted total 0 misses
the positive mass 50 while the claimed tolerance 0.01 times the number of
transactions is 0. -/
theorem tx_conservation_cex :
    computeTransactions [⟨1, "A"⟩] (fun _ => 50) = some []
    ∧ posMass [⟨1, "A"⟩] (fun _ => 50) = 50
    ∧ ¬(|txTotal [] - posMass [⟨1, "A"⟩] (fun _ => 50)|
          ≤ 1/100 * ((List.length ([] : List Tx)) : ℚ)) := by
  refine ⟨?_, ?_, ?_⟩
  · have h0 : initState [⟨1, "A"⟩] (fun _ => 50)
        = ⟨[], [⟨⟨1, "A"⟩, 50⟩], []⟩ := by
      simp [initState, partitionDC, sortDesc, insertDesc]
      norm_num [insertDesc]
    unfold computeTransactions
    rw [h0]
    show Option.map SweepState.txs
      (sweepRun 2 (⟨[], [⟨⟨1, "A"⟩, 50⟩], []⟩ : SweepState)) = some []
    rw [sweepRun_done 2 _ (Or.inl rfl)]
    rfl
  · norm_num [posMass]
  · norm_num [txTotal, posMass]

/-- C6 witness: the amended bound applied to the concrete four-player run
with zero-sum balances. -/
theorem tx_conservation_witness :
    |txTotal [⟨"A", "C", 30⟩, ⟨"A", "D", 10⟩, ⟨"B", "D", 10⟩]
        - posMass [⟨1, "A"⟩, ⟨2, "B"⟩, ⟨3, "C"⟩, ⟨4, "D"⟩]
            (fun i => if i = 1 then -40 else if i = 2 then -10 else if i = 3 then 30
              else if i = 4 then 20 else 0)|
      ≤ ((((initState [⟨1, "A"⟩, ⟨2, "B"⟩, ⟨3, "C"⟩, ⟨4, "D"⟩]
            (fun i => if i = 1 then -40 else if i = 2 then -10 else if i = 3 then 30
              else if i = 4 then 20 else 0)).debtors.length
          + (initState [⟨1, "A"⟩, ⟨2, "B"⟩, ⟨3, "C"⟩, ⟨4, "D"⟩]
            (fun i => if i = 1 then -40 else if i = 2 then -10 else if i = 3 then 30
              else if i = 4 then 20 else 0)).creditors.length : ℕ)) : ℚ)/50
        + ((List.length [(⟨"A", "C", 30⟩ : Tx), ⟨"A", "D", 10⟩, ⟨"B", "D", 10⟩] : ℕ) : ℚ)/200 :=
  tx_conservation [⟨1, "A"⟩, ⟨2, "B"⟩, ⟨3, "C"⟩, ⟨4, "D"⟩]
    (fun i => if i = 1 then -40 else if i = 2 then -10 else if i = 3 then 30
      else if i = 4 then 20 else 0) 5
    ⟨[], [], [⟨"A", "C", 30⟩, ⟨"A", "D", 10⟩, ⟨"B", "D", 10⟩]⟩
    (by norm_num) scenario5_run

/-! Claim C4: applying the emitted transactions to the balances. -/

/-- Application of the transactions to the balance of the player named n,
read LITERALLY from the words of the claim: the amount is subtracted from
the balance of the from player and added to the balance of the to
player. -/
def txEffectLit (txs : List Tx) (n : String) : ℚ :=
  (txs.map (fun t => (if t.toName = n then t.amount else 0)
    - (if t.fromName = n then t.amount else 0))).sum

/-- Application of the transactions with the corrected direction: a
transaction is a payment by the from player (the debtor, whose negative
balance rises by the amount) to the to player (the creditor, whose
positive balance falls by it). -/
def txEffect (txs : List Tx) (n : String) : ℚ :=
  (txs.map (fun t => (if t.fromName = n then t.amount else 0)
    - (if t.toName = n then t.amount else 0))).sum

theorem txEffect_nil (n : String) : txEffect [] n = 0 := rfl

theorem txEffect_snoc (txs : List Tx) (a b : String) (x : ℚ) (n : String) :
    txEffect (txs ++ [⟨a, b, x⟩]) n
      = txEffect txs n + ((if a = n then x else 0) - (if b = n then x else 0)) := by
  simp [txEffect]

/-- Outstanding amount of the player p in a work list: the summed amounts
of the entries whose player id equals that of p (at most one entry in
every reachable state). -/
def playerRem (l : List Entry) (p : Player) : ℚ :=
  ((l.filter (fun en => decide (en.player.id = p.id))).map Entry.amount).sum

theorem playerRem_nil (p : Player) : playerRem [] p = 0 := rfl

theorem playerRem_cons (en : Entry) (l : List Entry) (p : Player) :
    playerRem (en :: l) p
      = (if en.player.id = p.id then en.amount else 0) + playerRem l p := by
  unfold playerRem
  rw [List.filter_cons]
  by_cases h : en.player.id = p.id
  · simp [h]
  · simp [h]

theorem playerRem_eq_zero (l : List Entry) (p : Player)
    (h : ∀ en ∈ l, ¬(en.player.id = p.id)) : playerRem l p = 0 := by
  induction l with
  | nil => rfl
  | cons en t ih =>
    rw [playerRem_cons, if_neg (h en (List.mem_cons_self en t)),
      ih (fun e he => h e (List.mem_cons_of_mem en he)), add_zero]

theorem playerRem_nonneg (l : List Entry) (p : Player)
    (h : ∀ en ∈ l, 0 ≤ en.amount) : 0 ≤ playerRem l p := by
  induction l with
  | nil => exact le_refl 0
  | cons en t ih =>
    rw [playerRem_cons]
    have h1 := h en (List.mem_cons_self en t)
    have h2 := ih (fun e he => h e (List.mem_cons_of_mem en he))
    by_cases hc : en.player.id = p.id
    · rw [if_pos hc]
      linarith
    · rw [if_neg hc]
      linarith

theorem playerRem_le_entryTotal (l : List Entry) (p : Player)
    (h : ∀ en ∈ l, 0 ≤ en.amount) : playerRem l p ≤ entryTotal l := by
  induction l with
  | nil => exact le_refl 0
  | cons en t ih =>
    rw [playerRem_cons, entryTotal_cons]
    have h1 := h en (List.mem_cons_self en t)
    have h2 := ih (fun e he => h e (List.mem_cons_of_mem en he))
    by_cases hc : en.player.id = p.id
    · rw [if_pos hc]
      linarith
    · rw [if_neg hc]
      linarith

theorem playerRem_sortDesc (l : List Entry) (p : Player) :
    playerRem (sortDesc l) p = playerRem l p := by
  unfold playerRem
  exact List.Perm.sum_eq (((sortDesc_perm l).filter _).map Entry.amount)

/-- Richer characterisation of a cursor advance, additionally tracking the
per-player amounts, the id list and the provenance of the entries. -/
theorem advance_char2 (p : Player) (amt : ℚ) (tail : List Entry)
    (hamt : 0 ≤ amt) (htail : ∀ en ∈ tail, 0 ≤ en.amount) :
    ∃ (l : List Entry) (r : ℚ) (k : ℕ),
      (if amt < 1/100 then tail else (⟨p, amt⟩ : Entry) :: tail) = l
      ∧ entryTotal l = amt + entryTotal tail - r
      ∧ l.length + k = tail.length + 1
      ∧ 0 ≤ r ∧ r ≤ (k : ℚ)/100 ∧ k ≤ 1
      ∧ (∀ en ∈ l, 0 ≤ en.amount)
      ∧ (∀ q : Player, playerRem l q
          = (if p.id = q.id then amt - r else 0) + playerRem tail q)
      ∧ List.Sublist (l.map (fun en => en.player.id))
          (p.id :: tail.map (fun en => en.player.id))
      ∧ (∀ en ∈ l, en.player = p ∨ en ∈ tail) := by
  by_cases hdrop : amt < 1/100
  · refine ⟨tail, amt, 1, if_pos hdrop, by simp, by simp, hamt, ?_, le_refl 1, htail,
      ?_, ?_, fun en hen => Or.inr hen⟩
    · push_cast
      linarith
    · intro q
      by_cases hq : p.id = q.id
      · rw [if_pos hq]
        ring
      · rw [if_neg hq]
        ring
    · exact List.sublist_cons_self _ _
  · refine ⟨(⟨p, amt⟩ : Entry) :: tail, 0, 0, if_neg hdrop, ?_, by simp, le_refl 0,
      by norm_num, Nat.zero_le 1, ?_, ?_, ?_, ?_⟩
    · rw [entryTotal_cons]
      ring
    · intro en hen
      rcases List.mem_cons.mp hen with rfl | ht
      · exact hamt
      · exact htail en ht
    · intro q
      rw [playerRem_cons]
      by_cases hq : p.id = q.id
      · rw [if_pos hq, if_pos hq]
        ring_nf
      · rw [if_neg hq, if_neg hq]
    · exact List.Sublist.refl _
    · intro en hen
      rcases List.mem_cons.mp hen with rfl | ht
      · exact Or.inl rfl
      · exact Or.inr ht

/-! Identity lists of the partition. -/

theorem partition_debtors_ids (players : List Player) (bal : Nat → ℚ) :
    (partitionDC players bal).1.map (fun en => en.player.id)
      = (players.filter (fun p => decide (bal p.id < 0))).map Player.id := by
  rw [partitionDC_eq]
  dsimp only
  induction players with
  | nil => rfl
  | cons p t ih =>
    rw [List.filter_cons]
    by_cases h1 : bal p.id < 0
    · rw [List.filterMap_cons_some (by rw [if_pos h1]), List.map_cons]
      simp only [h1, decide_True, if_true, List.map_cons]
      rw [ih]
    · rw [List.filterMap_cons_none (by rw [if_neg h1])]
      simp only [h1, decide_False, Bool.false_eq_true, if_false]
      rw [ih]

theorem partition_creditors_ids (players : List Player) (bal : Nat → ℚ) :
    (partitionDC players bal).2.map (fun en => en.player.id)
      = (players.filter (fun p => decide (0 < bal p.id))).map Player.id := by
  rw [partitionDC_eq]
  dsimp only
  induction players with
  | nil => rfl
  | cons p t ih =>
    rw [List.filter_cons]
    by_cases h1 : 0 < bal p.id
    · rw [List.filterMap_cons_some (by rw [if_pos h1]), List.map_cons]
      simp only [h1, decide_True, if_true, List.map_cons]
      rw [ih]
    · rw [List.filterMap_cons_none (by rw [if_neg h1])]
      simp only [h1, decide_False, Bool.false_eq_true, if_false]
      rw [ih]

theorem init_ids_nodup (players : List Player) (bal : Nat → ℚ)
    (hids : (players.map Player.id).Nodup) :
    (((initState players bal).debtors ++ (initState players bal).creditors).map
      (fun en => en.player.id)).Nodup := by
  rw [List.map_append]
  have hpermd : ((initState players bal).debtors.map (fun en => en.player.id)).Perm
      ((partitionDC players bal).1.map (fun en => en.player.id)) :=
    (sortDesc_perm (partitionDC players bal).1).map _
  have hpermc : ((initState players bal).creditors.map (fun en => en.player.id)).Perm
      ((partitionDC players bal).2.map (fun en => en.player.id)) :=
    (sortDesc_perm (partitionDC players bal).2).map _
  apply List.Perm.nodup_iff (List.Perm.append hpermd hpermc) |>.mpr
  rw [partition_debtors_ids, partition_creditors_ids]
  apply List.Nodup.append
  · exact List.Nodup.sublist (List.Sublist.map _ (List.filter_sublist players)) hids
  · exact List.Nodup.sublist (List.Sublist.map _ (List.filter_sublist players)) hids
  · intro x hx1 hx2
    obtain ⟨p1, hp1, hid1⟩ := List.mem_map.mp hx1
    obtain ⟨p2, hp2, hid2⟩ := List.mem_map.mp hx2
    obtain ⟨hp1m, hp1c⟩ := List.mem_filter.mp hp1
    obtain ⟨hp2m, hp2c⟩ := List.mem_filter.mp hp2
    have hpp : p1 = p2 := List.inj_on_of_nodup_map hids hp1m hp2m (by rw [hid1, hid2])
    rw [hpp] at hp1c
    have h1 : bal p2.id < 0 := of_decide_eq_true hp1c
    have h2 : 0 < bal p2.id := of_decide_eq_true hp2c
    linarith

theorem mem_filterMap_debtors (t : List Player) (bal : Nat → ℚ) (en : Entry)
    (hen : en ∈ t.filterMap fun q => if bal q.id < 0 then some ⟨q, |bal q.id|⟩ else none) :
    en.player ∈ t ∧ bal en.player.id < 0 ∧ en.amount = |bal en.player.id| := by
  apply partitionDC_debtors_mem t bal en
  rw [partitionDC_eq]
  exact hen

theorem mem_filterMap_creditors (t : List Player) (bal : Nat → ℚ) (en : Entry)
    (hen : en ∈ t.filterMap fun q => if 0 < bal q.id then some ⟨q, bal q.id⟩ else none) :
    en.player ∈ t ∧ 0 < bal en.player.id ∧ en.amount = bal en.player.id := by
  apply partitionDC_creditors_mem t bal en
  rw [partitionDC_eq]
  exact hen

theorem playerRem_filterMap_debtors (players : List Player) (bal : Nat → ℚ) :
    ∀ p : Player, (players.map Player.id).Nodup → p ∈ players →
    playerRem (players.filterMap fun q =>
      if bal q.id < 0 then some ⟨q, |bal q.id|⟩ else none) p
      = if bal p.id < 0 then |bal p.id| else 0 := by
  induction players with
  | nil =>
    intro p _ hp
    cases hp
  | cons q t ih =>
    intro p hids hp
    rw [List.map_cons] at hids
    have hnd := List.nodup_cons.mp hids
    rcases List.mem_cons.mp hp with rfl | hpt
    · have hrest : playerRem (t.filterMap fun q =>
          if bal q.id < 0 then some ⟨q, |bal q.id|⟩ else none) p = 0 := by
        apply playerRem_eq_zero
        intro en hen hcontra
        obtain ⟨henp, _, _⟩ := mem_filterMap_debtors t bal en hen
        have : p.id ∈ t.map Player.id := by
          rw [← hcontra]
          exact List.mem_map_of_mem Player.id henp
        exact hnd.1 this
      by_cases h1 : bal p.id < 0
      · rw [List.filterMap_cons_some (by rw [if_pos h1]), playerRem_cons, hrest,
          if_pos rfl, if_pos h1, add_zero]
      · rw [List.filterMap_cons_none (by rw [if_neg h1]), hrest, if_neg h1]
    · have hq : ¬(q.id = p.id) := by
        intro hcontra
        have : q.id ∈ t.map Player.id := by
          rw [hcontra]
          exact List.mem_map_of_mem Player.id hpt
        exact hnd.1 this
      have iht := ih p hnd.2 hpt
      by_cases h1 : bal q.id < 0
      · rw [List.filterMap_cons_some (by rw [if_pos h1]), playerRem_cons,
          if_neg hq, zero_add, iht]
      · rw [List.filterMap_cons_none (by rw [if_neg h1]), iht]

theorem playerRem_filterMap_creditors (players : List Player) (bal : Nat → ℚ) :
    ∀ p : Player, (players.map Player.id).Nodup → p ∈ players →
    playerRem (players.filterMap fun q =>
      if 0 < bal q.id then some ⟨q, bal q.id⟩ else none) p
      = if 0 < bal p.id then bal p.id else 0 := by
  induction players with
  | nil =>
    intro p _ hp
    cases hp
  | cons q t ih =>
    intro p hids hp
    rw [List.map_cons] at hids
    have hnd := List.nodup_cons.mp hids
    rcases List.mem_cons.mp hp with rfl | hpt
    · have hrest : playerRem (t.filterMap fun q =>
          if 0 < bal q.id then some ⟨q, bal q.id⟩ else none) p = 0 := by
        apply playerRem_eq_zero
        intro en hen hcontra
        obtain ⟨henp, _, _⟩ := mem_filterMap_creditors t bal en hen
        have : p.id ∈ t.map Player.id := by
          rw [← hcontra]
          exact List.mem_map_of_mem Player.id henp
        exact hnd.1 this
      by_cases h1 : 0 < bal p.id
      · rw [List.filterMap_cons_some (by rw [if_pos h1]), playerRem_cons, hrest,
          if_pos rfl, if_pos h1, add_zero]
      · rw [List.filterMap_cons_none (by rw [if_neg h1]), hrest, if_neg h1]
    · have hq : ¬(q.id = p.id) := by
        intro hcontra
        have : q.id ∈ t.map Player.id := by
          rw [hcontra]
          exact List.mem_map_of_mem Player.id hpt
        exact hnd.1 this
      have iht := ih p hnd.2 hpt
      by_cases h1 : 0 < bal q.id
      · rw [List.filterMap_cons_some (by rw [if_pos h1]), playerRem_cons,
          if_neg hq, zero_add, iht]
      · rw [List.filterMap_cons_none (by rw [if_neg h1]), iht]

/-- Per-player settlement invariant: amounts are non-negative, the entry
count never grows, the entry players are pairwise distinct listed players,
the two side totals differ by at most a cent per dropped entry (the input
balances sum to zero), and for every listed player the balance after
applying the transactions emitted so far equals the signed outstanding
remainder of that player up to half a cent per transaction and a cent per
dropped entry. -/
def SettleInv (players : List Player) (bal : Nat → ℚ) (n0 : ℕ) (s : SweepState) : Prop :=
  (∀ en ∈ s.debtors, 0 ≤ en.amount)
  ∧ (∀ en ∈ s.creditors, 0 ≤ en.amount)
  ∧ s.debtors.length + s.creditors.length ≤ n0
  ∧ ((s.debtors ++ s.creditors).map (fun en => en.player.id)).Nodup
  ∧ (∀ en ∈ s.debtors ++ s.creditors, en.player ∈ players)
  ∧ |entryTotal s.debtors - entryTotal s.creditors|
      ≤ ((n0 : ℚ) - ((s.debtors.length + s.creditors.length : ℕ) : ℚ))/100
  ∧ ∀ p ∈ players,
      |bal p.id + txEffect s.txs p.name + playerRem s.debtors p - playerRem s.creditors p|
        ≤ (s.txs.length : ℚ)/200
          + ((n0 : ℚ) - ((s.debtors.length + s.creditors.length : ℕ) : ℚ))/100

theorem SettleInv_init (players : List Player) (bal : Nat → ℚ)
    (hids : (players.map Player.id).Nodup)
    (hzero : (players.map (fun p => bal p.id)).sum = 0) :
    SettleInv players bal
      ((initState players bal).debtors.length + (initState players bal).creditors.length)
      (initState players bal) := by
  have hD0 : entryTotal (initState players bal).debtors = negMass players bal := by
    show entryTotal (sortDesc (partitionDC players bal).1) = _
    rw [entryTotal_sortDesc, partition_debtors_total]
  have hC0 : entryTotal (initState players bal).creditors = posMass players bal := by
    show entryTotal (sortDesc (partitionDC players bal).2) = _
    rw [entryTotal_sortDesc, partition_creditors_total]
  refine ⟨?_, ?_, le_refl _, init_ids_nodup players bal hids, ?_, ?_, ?_⟩
  · intro en hen
    obtain ⟨_, _, hamt⟩ := partitionDC_debtors_mem players bal en
      ((sortDesc_perm _).subset hen)
    rw [hamt]
    exact abs_nonneg _
  · intro en hen
    obtain ⟨_, hpos, hamt⟩ := partitionDC_creditors_mem players bal en
      ((sortDesc_perm _).subset hen)
    rw [hamt]
    exact le_of_lt hpos
  · intro en hen
    rcases List.mem_append.mp hen with hd | hc
    · exact (partitionDC_debtors_mem players bal en ((sortDesc_perm _).subset hd)).1
    · exact (partitionDC_creditors_mem players bal en ((sortDesc_perm _).subset hc)).1
  · rw [hD0, hC0]
    have hsub := negMass_sub_posMass players bal
    rw [hzero] at hsub
    rw [show negMass players bal - posMass players bal = 0 by linarith, abs_zero]
    simp
  · intro p hp
    have hremD : playerRem (initState players bal).debtors p
        = if bal p.id < 0 then |bal p.id| else 0 := by
      show playerRem (sortDesc (partitionDC players bal).1) p = _
      rw [playerRem_sortDesc, partitionDC_eq]
      exact playerRem_filterMap_debtors players bal p hids hp
    have hremC : playerRem (initState players bal).creditors p
        = if 0 < bal p.id then bal p.id else 0 := by
      show playerRem (sortDesc (partitionDC players bal).2) p = _
      rw [playerRem_sortDesc, partitionDC_eq]
      exact playerRem_filterMap_creditors players bal p hids hp
    have htx : (initState players bal).txs = [] := rfl
    rw [hremD, hremC, htx, txEffect_nil]
    rcases lt_trichotomy (bal p.id) 0 with h1 | h1 | h1
    · rw [if_pos h1, if_neg (by linarith), abs_of_neg h1]
      simp
    · rw [h1, if_neg (by norm_num), if_neg (by norm_num)]
      simp
    · rw [if_neg (by linarith), if_pos h1]
      simp

theorem SettleInv_step (players : List Player) (bal : Nat → ℚ) (n0 : ℕ)
    (hpids : (players.map Player.id).Nodup)
    (hnames : (players.map Player.name).Nodup)
    (s : SweepState) (hd : s.debtors ≠ []) (hc : s.creditors ≠ [])
    (h : SettleInv players bal n0 s) : SettleInv players bal n0 (sweepStep s) := by
  obtain ⟨dl, cl, txs⟩ := s
  cases dl with
  | nil => exact absurd rfl hd
  | cons d ds =>
  cases cl with
  | nil => exact absurd rfl hc
  | cons c cs =>
  obtain ⟨hDnn, hCnn, hLen, hNod, hMem, hDiff, hPer⟩ := h
  have hd0 : 0 ≤ d.amount := hDnn d (List.mem_cons_self d ds)
  have hc0 : 0 ≤ c.amount := hCnn c (List.mem_cons_self c cs)
  have hdsnn : ∀ en ∈ ds, 0 ≤ en.amount := fun en hen => hDnn en (List.mem_cons_of_mem d hen)
  have hcsnn : ∀ en ∈ cs, 0 ≤ en.amount := fun en hen => hCnn en (List.mem_cons_of_mem c hen)
  have hdmem : d.player ∈ players := hMem d (List.mem_append_left _ (List.mem_cons_self d ds))
  have hcmem : c.player ∈ players :=
    hMem c (List.mem_append_right _ (List.mem_cons_self c cs))
  have hdcid : d.player.id ≠ c.player.id := by
    intro hcontra
    have h1 : (((d :: ds) ++ c :: cs).map (fun en => en.player.id)).Nodup := hNod
    rw [List.cons_append, List.map_cons] at h1
    apply (List.nodup_cons.mp h1).1
    rw [hcontra]
    exact List.mem_map_of_mem _ (List.mem_append_right _ (List.mem_cons_self c cs))
  simp only [entryTotal_cons, List.length_cons] at hDiff hLen
  have hLenQ : (ds.length : ℚ) + 1 + ((cs.length : ℚ) + 1) ≤ (n0 : ℚ) := by
    exact_mod_cast hLen
  push_cast at hDiff
  rw [abs_le] at hDiff
  rw [sweepStep_cons]
  by_cases hemit : 1/100 < min d.amount c.amount
  · rw [if_pos hemit]
    have hsd : min d.amount c.amount ≤ d.amount := min_le_left _ _
    have hsc : min d.amount c.amount ≤ c.amount := min_le_right _ _
    obtain ⟨Dl, rd, kd, hDeq, hDtot, hDlen, hrd0, hrdk, hkd1, hDnn2, hDrem, hDids, hDprov⟩ :=
      advance_char2 d.player (d.amount - min d.amount c.amount) ds (by linarith) hdsnn
    obtain ⟨Cl, rc, kc, hCeq, hCtot, hClen, hrc0, hrck, hkc1, hCnn2, hCrem, hCids, hCprov⟩ :=
      advance_char2 c.player (c.amount - min d.amount c.amount) cs (by linarith) hcsnn
    rw [hDeq, hCeq]
    have hDlenQ : (Dl.length : ℚ) + kd = (ds.length : ℚ) + 1 := by exact_mod_cast hDlen
    have hClenQ : (Cl.length : ℚ) + kc = (cs.length : ℚ) + 1 := by exact_mod_cast hClen
    have hr2u := round2_le (min d.amount c.amount)
    have hr2l := le_round2 (min d.amount c.amount)
    refine ⟨hDnn2, hCnn2, by dsimp only; omega, ?_, ?_, ?_, ?_⟩
    · dsimp only
      rw [List.map_append]
      have hNod2 : (((d :: ds).map (fun en => en.player.id))
          ++ ((c :: cs).map (fun en => en.player.id))).Nodup := by
        rw [← List.map_append]
        exact hNod
      rw [List.map_cons, List.map_cons] at hNod2
      exact List.Nodup.sublist (List.Sublist.append hDids hCids) hNod2
    · intro en hen
      dsimp only at hen
      rcases List.mem_append.mp hen with h1 | h1
      · rcases hDprov en h1 with hpe | hpe
        · rw [hpe]
          exact hdmem
        · exact hMem en (List.mem_append_left _ (List.mem_cons_of_mem d hpe))
      · rcases hCprov en h1 with hpe | hpe
        · rw [hpe]
          exact hcmem
        · exact hMem en (List.mem_append_right _ (List.mem_cons_of_mem c hpe))
    · dsimp only
      rw [hDtot, hCtot, abs_le]
      push_cast
      constructor
      · linarith
      · linarith
    · intro p hp
      dsimp only
      have hold := hPer p hp
      rw [playerRem_cons, playerRem_cons] at hold
      simp only [List.length_cons] at hold
      push_cast at hold
      rw [txEffect_snoc, hDrem p, hCrem p]
      simp only [List.length_append, List.length_singleton]
      by_cases hdp : d.player.id = p.id
      · have hcpid : ¬(c.player.id = p.id) := fun hcontra => hdcid (by rw [hdp, hcontra])
        have hdpp : d.player = p := List.inj_on_of_nodup_map hpids hdmem hp hdp
        have hdpn : d.player.name = p.name := by rw [hdpp]
        have hcpn : ¬(c.player.name = p.name) := by
          intro hcontra
          exact hcpid (by rw [List.inj_on_of_nodup_map hnames hcmem hp hcontra])
        rw [if_pos hdpn, if_neg hcpn, if_pos hdp, if_neg hcpid]
        rw [if_pos hdp, if_neg hcpid] at hold
        rw [abs_le] at hold ⊢
        push_cast
        constructor
        · linarith
        · linarith
      · by_cases hcp : c.player.id = p.id
        · have hcpp : c.player = p := List.inj_on_of_nodup_map hpids hcmem hp hcp
          have hcpn : c.player.name = p.name := by rw [hcpp]
          have hdpn : ¬(d.player.name = p.name) := by
            intro hcontra
            exact hdp (by rw [List.inj_on_of_nodup_map hnames hdmem hp hcontra])
          rw [if_neg hdpn, if_pos hcpn, if_neg hdp, if_pos hcp]
          rw [if_neg hdp, if_pos hcp] at hold
          rw [abs_le] at hold ⊢
          push_cast
          constructor
          · linarith
          · linarith
        · have hdpn : ¬(d.player.name = p.name) := by
            intro hcontra
            exact hdp (by rw [List.inj_on_of_nodup_map hnames hdmem hp hcontra])
          have hcpn : ¬(c.player.name = p.name) := by
            intro hcontra
            exact hcp (by rw [List.inj_on_of_nodup_map hnames hcmem hp hcontra])
          rw [if_neg hdpn, if_neg hcpn, if_neg hdp, if_neg hcp]
          rw [if_neg hdp, if_neg hcp] at hold
          rw [abs_le] at hold ⊢
          push_cast
          constructor
          · linarith
          · linarith
  · rw [if_neg hemit]
    obtain ⟨Dl, rd, kd, hDeq, hDtot, hDlen, hrd0, hrdk, hkd1, hDnn2, hDrem, hDids, hDprov⟩ :=
      advance_char2 d.player d.amount ds hd0 hdsnn
    obtain ⟨Cl, rc, kc, hCeq, hCtot, hClen, hrc0, hrck, hkc1, hCnn2, hCrem, hCids, hCprov⟩ :=
      advance_char2 c.player c.amount cs hc0 hcsnn
    rw [hDeq, hCeq]
    have hDlenQ : (Dl.length : ℚ) + kd = (ds.length : ℚ) + 1 := by exact_mod_cast hDlen
    have hClenQ : (Cl.length : ℚ) + kc = (cs.length : ℚ) + 1 := by exact_mod_cast hClen
    refine ⟨hDnn2, hCnn2, by dsimp only; omega, ?_, ?_, ?_, ?_⟩
    · dsimp only
      rw [List.map_append]
      have hNod2 : (((d :: ds).map (fun en => en.player.id))
          ++ ((c :: cs).map (fun en => en.player.id))).Nodup := by
        rw [← List.map_append]
        exact hNod
      rw [List.map_cons, List.map_cons] at hNod2
      exact List.Nodup.sublist (List.Sublist.append hDids hCids) hNod2
    · intro en hen
      dsimp only at hen
      rcases List.mem_append.mp hen with h1 | h1
      · rcases hDprov en h1 with hpe | hpe
        · rw [hpe]
          exact hdmem
        · exact hMem en (List.mem_append_left _ (List.mem_cons_of_mem d hpe))
      · rcases hCprov en h1 with hpe | hpe
        · rw [hpe]
          exact hcmem
        · exact hMem en (List.mem_append_right _ (List.mem_cons_of_mem c hpe))
    · dsimp only
      rw [hDtot, hCtot, abs_le]
      push_cast
      constructor
      · linarith
      · linarith
    · intro p hp
      dsimp only
      have hold := hPer p hp
      rw [playerRem_cons, playerRem_cons] at hold
      simp only [List.length_cons] at hold
      push_cast at hold
      rw [hDrem p, hCrem p]
      by_cases hdp : d.player.id = p.id
      · have hcpid : ¬(c.player.id = p.id) := fun hcontra => hdcid (by rw [hdp, hcontra])
        rw [if_pos hdp, if_neg hcpid]
        rw [if_pos hdp, if_neg hcpid] at hold
        rw [abs_le] at hold ⊢
        push_cast
        constructor
        · linarith
        · linarith
      · by_cases hcp : c.player.id = p.id
        · rw [if_neg hdp, if_pos hcp]
          rw [if_neg hdp, if_pos hcp] at hold
          rw [abs_le] at hold ⊢
          push_cast
          constructor
          · linarith
          · linarith
        · rw [if_neg hdp, if_neg hcp]
          rw [if_neg hdp, if_neg hcp] at hold
          rw [abs_le] at hold ⊢
          push_cast
          constructor
          · linarith
          · linarith

/-- C4 amended, main bound: for distinct players with distinct names whose
balances sum to zero, after any terminating run of the sweep, applying
every emitted transaction to the balances WITH THE CORRECTED DIRECTION
(the amount raises the from balance and lowers the to balance: the debtor
pays, so the debt shrinks) leaves every listed player within half a cent
per transaction plus two cents per starting work-list entry of zero.  The
original claim fails in two ways, shown in the counterexample: read
literally its application direction drives balances away from zero, and
even with the direction corrected the fixed epsilon 0.01 is exceeded by
accumulated sub-cent residues. -/
theorem full_settlement (players : List Player) (bal : Nat → ℚ) (fuel : Nat)
    (s' : SweepState)
    (hpids : (players.map Player.id).Nodup)
    (hnames : (players.map Player.name).Nodup)
    (hzero : (players.map (fun p => bal p.id)).sum = 0)
    (hrun : sweepRun fuel (initState players bal) = some s') :
    ∀ p ∈ players,
      |bal p.id + txEffect s'.txs p.name|
        ≤ (s'.txs.length : ℚ)/200
          + ((((initState players bal).debtors.length
              + (initState players bal).creditors.length : ℕ)) : ℚ)/50 := by
  have hfin := sweepRun_invariant
    (SettleInv players bal
      ((initState players bal).debtors.length + (initState players bal).creditors.length))
    (fun s hds hcs hP => SettleInv_step players bal _ hpids hnames s hds hcs hP) fuel _ s'
    (SettleInv_init players bal hpids hzero) hrun
  obtain ⟨⟨hDnn, hCnn, hLen, hNod, hMem, hDiffF, hPer⟩, hfinal⟩ := hfin
  intro p hp
  have hp2 := hPer p hp
  have hremDnn : 0 ≤ playerRem s'.debtors p := playerRem_nonneg _ _ hDnn
  have hremCnn : 0 ≤ playerRem s'.creditors p := playerRem_nonneg _ _ hCnn
  have hremDle : playerRem s'.debtors p ≤ entryTotal s'.debtors :=
    playerRem_le_entryTotal _ _ hDnn
  have hL2 : ((s'.debtors.length + s'.creditors.length : ℕ) : ℚ)
      ≤ (((initState players bal).debtors.length
          + (initState players bal).creditors.length : ℕ) : ℚ) := by
    exact_mod_cast hLen
  have hL2nn : (0:ℚ) ≤ ((s'.debtors.length + s'.creditors.length : ℕ) : ℚ) := by positivity
  have hn0nn : (0:ℚ) ≤ (((initState players bal).debtors.length
      + (initState players bal).creditors.length : ℕ) : ℚ) := by positivity
  have hTnn : (0:ℚ) ≤ (s'.txs.length : ℚ) := by positivity
  have hremCle : playerRem s'.creditors p ≤ entryTotal s'.creditors :=
    playerRem_le_entryTotal _ _ hCnn
  rw [abs_le] at hDiffF hp2 ⊢
  rcases hfinal with hDe | hCe
  · have hD2 : entryTotal s'.debtors = 0 := by rw [hDe]; rfl
    have hremD0 : playerRem s'.debtors p = 0 := by rw [hDe]; rfl
    rw [hremD0] at hp2
    rw [hD2] at hDiffF
    constructor
    · linarith [hDiffF.1, hp2.1]
    · linarith [hDiffF.1, hp2.2]
  · have hC2 : entryTotal s'.creditors = 0 := by rw [hCe]; rfl
    have hremC0 : playerRem s'.creditors p = 0 := by rw [hCe]; rfl
    rw [hremC0] at hp2
    rw [hC2] at hDiffF
    constructor
    · linarith [hDiffF.2, hp2.1]
    · linarith [hDiffF.2, hp2.2]

theorem scenario1_init :
    initState [⟨1, "A"⟩, ⟨2, "B"⟩, ⟨3, "C"⟩]
        (computeBalances [⟨1, "A"⟩, ⟨2, "B"⟩, ⟨3, "C"⟩] [⟨90, 1, [1, 2, 3]⟩]).val
      = ⟨[⟨⟨2, "B"⟩, 30⟩, ⟨⟨3, "C"⟩, 30⟩], [⟨⟨1, "A"⟩, 60⟩], []⟩ := by
  simp [initState, partitionDC, computeBalances, applyExpense, BalMap.addTo,
    BalMap.empty, Function.update, sortDesc, insertDesc]
  norm_num [insertDesc]

theorem scenario1_step1 :
    sweepStep ⟨[⟨⟨2, "B"⟩, 30⟩, ⟨⟨3, "C"⟩, 30⟩], [⟨⟨1, "A"⟩, 60⟩], []⟩
      = ⟨[⟨⟨3, "C"⟩, 30⟩], [⟨⟨1, "A"⟩, 30⟩], [⟨"B", "A", 30⟩]⟩ := by
  norm_num [sweepStep, round2, roundHalfEven, Int.fract, round_eq, min_def]

theorem scenario1_step2 :
    sweepStep ⟨[⟨⟨3, "C"⟩, 30⟩], [⟨⟨1, "A"⟩, 30⟩], [⟨"B", "A", 30⟩]⟩
      = ⟨[], [], [⟨"B", "A", 30⟩, ⟨"C", "A", 30⟩]⟩ := by
  norm_num [sweepStep, round2, roundHalfEven, Int.fract, round_eq, min_def]

theorem scenario1_txs :
    computeTransactions [⟨1, "A"⟩, ⟨2, "B"⟩, ⟨3, "C"⟩]
        (computeBalances [⟨1, "A"⟩, ⟨2, "B"⟩, ⟨3, "C"⟩] [⟨90, 1, [1, 2, 3]⟩]).val
      = some [⟨"B", "A", 30⟩, ⟨"C", "A", 30⟩] := by
  unfold computeTransactions
  rw [scenario1_init]
  show Option.map SweepState.txs (sweepRun 4
    (⟨[⟨⟨2, "B"⟩, 30⟩, ⟨⟨3, "C"⟩, 30⟩], [⟨⟨1, "A"⟩, 60⟩], []⟩ : SweepState)) = _
  rw [show (4:Nat) = 3+1 from rfl, sweepRun_succ_ne _ _ (by simp), scenario1_step1,
    show (3:Nat) = 2+1 from rfl, sweepRun_succ_ne _ _ (by simp), scenario1_step2,
    sweepRun_done _ _ (by simp)]
  rfl

theorem residue_init :
    initState [⟨1, "A"⟩, ⟨2, "B"⟩, ⟨3, "C"⟩, ⟨4, "D"⟩]
        (fun i => if i = 1 then -27/1000 else if i = 2 then 9/1000
          else if i = 3 then 9/1000 else if i = 4 then 9/1000 else 0)
      = ⟨[⟨⟨1, "A"⟩, 27/1000⟩],
         [⟨⟨2, "B"⟩, 9/1000⟩, ⟨⟨3, "C"⟩, 9/1000⟩, ⟨⟨4, "D"⟩, 9/1000⟩], []⟩ := by
  simp [initState, partitionDC, sortDesc, insertDesc]
  norm_num [insertDesc]

theorem residue_step1 :
    sweepStep ⟨[⟨⟨1, "A"⟩, 27/1000⟩],
        [⟨⟨2, "B"⟩, 9/1000⟩, ⟨⟨3, "C"⟩, 9/1000⟩, ⟨⟨4, "D"⟩, 9/1000⟩], []⟩
      = ⟨[⟨⟨1, "A"⟩, 27/1000⟩], [⟨⟨3, "C"⟩, 9/1000⟩, ⟨⟨4, "D"⟩, 9/1000⟩], []⟩ := by
  norm_num [sweepStep, min_def]

theorem residue_step2 :
    sweepStep ⟨[⟨⟨1, "A"⟩, 27/1000⟩], [⟨⟨3, "C"⟩, 9/1000⟩, ⟨⟨4, "D"⟩, 9/1000⟩], []⟩
      = ⟨[⟨⟨1, "A"⟩, 27/1000⟩], [⟨⟨4, "D"⟩, 9/1000⟩], []⟩ := by
  norm_num [sweepStep, min_def]

theorem residue_step3 :
    sweepStep ⟨[⟨⟨1, "A"⟩, 27/1000⟩], [⟨⟨4, "D"⟩, 9/1000⟩], []⟩
      = ⟨[⟨⟨1, "A"⟩, 27/1000⟩], [], []⟩ := by
  norm_num [sweepStep, min_def]

theorem residue_txs :
    computeTransactions [⟨1, "A"⟩, ⟨2, "B"⟩, ⟨3, "C"⟩, ⟨4, "D"⟩]
        (fun i => if i = 1 then -27/1000 else if i = 2 then 9/1000
          else if i = 3 then 9/1000 else if i = 4 then 9/1000 else 0) = some [] := by
  unfold computeTransactions
  rw [residue_init]
  show Option.map SweepState.txs (sweepRun 5
    (⟨[⟨⟨1, "A"⟩, 27/1000⟩],
      [⟨⟨2, "B"⟩, 9/1000⟩, ⟨⟨3, "C"⟩, 9/1000⟩, ⟨⟨4, "D"⟩, 9/1000⟩], []⟩ : SweepState)) = _
  rw [show (5:Nat) = 4+1 from rfl, sweepRun_succ_ne _ _ (by simp), residue_step1,
    show (4:Nat) = 3+1 from rfl, sweepRun_succ_ne _ _ (by simp), residue_step2,
    show (3:Nat) = 2+1 from rfl, sweepRun_succ_ne _ _ (by simp), residue_step3,
    sweepRun_done _ _ (by simp)]
  rfl

/-- C4 counterexample, in two parts.  First, the claim read literally
(subtract the amount from the from balance, add it to the to balance)
fails on the spec's own scenario 1: the creditor A starts at +60, the two
transactions pay 30 each INTO A under that reading, and A ends at 120, far
outside every epsilon.  Second, even with the direction corrected, the
tolks of the claim fail: on the zero-sum balances -0.027, +0.009, +0.009,
+0.009 the sweep emits NO transactions (each minimum 0.009 is not above
0.01, each creditor is dropped), so player A keeps the balance -0.027,
which is outside the epsilon 0.01. -/
theorem full_settlement_cex :
    computeTransactions [⟨1, "A"⟩, ⟨2, "B"⟩, ⟨3, "C"⟩]
        (computeBalances [⟨1, "A"⟩, ⟨2, "B"⟩, ⟨3, "C"⟩] [⟨90, 1, [1, 2, 3]⟩]).val
      = some [⟨"B", "A", 30⟩, ⟨"C", "A", 30⟩]
    ∧ (computeBalances [⟨1, "A"⟩, ⟨2, "B"⟩, ⟨3, "C"⟩] [⟨90, 1, [1, 2, 3]⟩]).val 1
        + txEffectLit [⟨"B", "A", 30⟩, ⟨"C", "A", 30⟩] "A" = 120
    ∧ ¬(|(120 : ℚ)| ≤ 1/100)
    ∧ computeTransactions [⟨1, "A"⟩, ⟨2, "B"⟩, ⟨3, "C"⟩, ⟨4, "D"⟩]
        (fun i => if i = 1 then -27/1000 else if i = 2 then 9/1000
          else if i = 3 then 9/1000 else if i = 4 then 9/1000 else 0) = some []
    ∧ ¬(|(fun i => if i = 1 then (-27/1000 : ℚ) else if i = 2 then 9/1000
          else if i = 3 then 9/1000 else if i = 4 then 9/1000 else 0) 1
          + txEffect [] "A"| ≤ 1/100) := by
  refine ⟨scenario1_txs, ?_, by norm_num, residue_txs, ?_⟩
  · have hval : (computeBalances [⟨1, "A"⟩, ⟨2, "B"⟩, ⟨3, "C"⟩] [⟨90, 1, [1, 2, 3]⟩]).val 1
        = 60 := by
      simp [computeBalances, applyExpense, BalMap.addTo, BalMap.empty, Function.update]
      norm_num
    rw [hval]
    norm_num [txEffectLit, show ("B" : String) ≠ "A" from by decide,
      show ("C" : String) ≠ "A" from by decide]
  · norm_num [txEffect]
    rw [abs_of_pos]
    · norm_num
    · norm_num

/-- C4 witness: the amended bound applied to the concrete four-player run
at the largest debtor, whose applied balance lands exactly on zero. -/
theorem full_settlement_witness :
    |(fun i => if i = 1 then (-40 : ℚ) else if i = 2 then -10 else if i = 3 then 30
        else if i = 4 then 20 else 0) (Player.mk 1 "A").id
      + txEffect [⟨"A", "C", 30⟩, ⟨"A", "D", 10⟩, ⟨"B", "D", 10⟩] (Player.mk 1 "A").name|
      ≤ ((List.length [(⟨"A", "C", 30⟩ : Tx), ⟨"A", "D", 10⟩, ⟨"B", "D", 10⟩] : ℕ) : ℚ)/200
        + ((((initState [⟨1, "A"⟩, ⟨2, "B"⟩, ⟨3, "C"⟩, ⟨4, "D"⟩]
            (fun i => if i = 1 then -40 else if i = 2 then -10 else if i = 3 then 30
              else if i = 4 then 20 else 0)).debtors.length
          + (initState [⟨1, "A"⟩, ⟨2, "B"⟩, ⟨3, "C"⟩, ⟨4, "D"⟩]
            (fun i => if i = 1 then -40 else if i = 2 then -10 else if i = 3 then 30
              else if i = 4 then 20 else 0)).creditors.length : ℕ)) : ℚ)/50 :=
  full_settlement [⟨1, "A"⟩, ⟨2, "B"⟩, ⟨3, "C"⟩, ⟨4, "D"⟩]
    (fun i => if i = 1 then -40 else if i = 2 then -10 else if i = 3 then 30
      else if i = 4 then 20 else 0) 5
    ⟨[], [], [⟨"A", "C", 30⟩, ⟨"A", "D", 10⟩, ⟨"B", "D", 10⟩]⟩
    (by decide) (by decide) (by norm_num) scenario5_run
    (Player.mk 1 "A") (by simp)

end SireCup
